import Mathlib

/-!
# A verification development for the `robotstxt` Go package

This file gives a shallow embedding of the robots.txt parser and
rule-matching engine of `robotstxt.go` and proves properties of it.

Modelling conventions:
* Go strings holding robots.txt text and URLs are modelled as `List Char`
  (Go strings are byte sequences; for the text-level processing all
  operations used by the package are byte-transparent on valid UTF-8,
  so a character-level model is faithful there).
* The strings produced by `url.PathUnescape` may contain arbitrary bytes
  (percent-escapes decode to raw bytes), so unescaped paths and the regex
  source strings built from them are modelled as `List Nat` byte lists.
* Compiled regular expressions are modelled by the fragment of Go regexp
  syntax that `compilePattern` can emit: a sequence of literal runes and
  `(?:.*)` wildcard groups, with an optional trailing `$` anchor.
  `regexp.MatchString` searches for a match anywhere in the input and `.`
  does not match a newline; both are reflected in the matcher below.
-/

/-- Go `unicode.IsSpace` restricted to the Latin-1 range (tab, newline,
vertical tab, form feed, carriage return, space, NEL, NBSP).  The
whitespace appearing in robots.txt files is covered by this set. -/
def goIsSpace (c : Char) : Bool :=
  c = ' ' || c = '\t' || c = '\n' || c.toNat = 11 || c.toNat = 12 ||
    c = '\r' || c.toNat = 133 || c.toNat = 160

/-- Go `strings.TrimSpace`: drop whitespace from both ends. -/
def trimSpace (l : List Char) : List Char :=
  ((l.dropWhile goIsSpace).reverse.dropWhile goIsSpace).reverse

/-- ASCII lower-casing of one character, as Go `strings.ToLower` acts on
the ASCII directive keys and user-agent names handled here. -/
def lowerChar (c : Char) : Char :=
  if 65 ≤ c.toNat ∧ c.toNat ≤ 90 then Char.ofNat (c.toNat + 32) else c

/-- Go `strings.ToLower` (ASCII fragment). -/
def toLowerList (l : List Char) : List Char :=
  l.map lowerChar

/-- Go `strings.Split(s, "\n")`. -/
def splitLines : List Char → List (List Char)
  | [] => [[]]
  | c :: cs =>
    if c = '\n' then [] :: splitLines cs
    else
      match splitLines cs with
      | [] => [[c]]
      | l :: ls => (c :: l) :: ls

/-- Go `strings.SplitN(line, ":", 2)`: `none` when the line has no colon,
otherwise the part before the first colon and the rest. -/
def splitFirstColon : List Char → Option (List Char × List Char)
  | [] => none
  | c :: cs =>
    if c = ':' then some ([], cs)
    else (fun p => (c :: p.1, p.2)) <$> splitFirstColon cs

/-- Fuelled worker for `replaceAll`; the fuel only bounds the recursion
depth (one unit per position scanned) and is set so it never runs out. -/
def replaceAllF {α : Type} [DecidableEq α] (pat rep : List α) : Nat → List α → List α
  | _, [] => []
  | 0, s => s
  | f + 1, c :: s =>
    if pat ≠ [] ∧ pat.isPrefixOf (c :: s) then
      rep ++ replaceAllF pat rep f ((c :: s).drop pat.length)
    else
      c :: replaceAllF pat rep f s

/-- Go `strings.Replace(s, old, new, -1)`: leftmost non-overlapping
replacement of every occurrence of `pat` by `rep`. -/
def replaceAll {α : Type} [DecidableEq α] (pat rep : List α) (s : List α) : List α :=
  replaceAllF pat rep s.length s

theorem replaceAllF_fuel {α : Type} [DecidableEq α] (pat rep : List α) :
    ∀ (f g : Nat) (s : List α), s.length ≤ f → s.length ≤ g →
      replaceAllF pat rep f s = replaceAllF pat rep g s := by
  intro f
  induction f with
  | zero =>
    intro g s hf _
    have : s = [] := List.length_eq_zero.mp (Nat.le_zero.mp hf)
    subst this
    cases g <;> rfl
  | succ f ih =>
    intro g s hf hg
    cases s with
    | nil => cases g <;> rfl
    | cons c s =>
      cases g with
      | zero => simp at hg
      | succ g =>
        simp only [replaceAllF]
        by_cases h : pat ≠ [] ∧ pat.isPrefixOf (c :: s)
        · simp only [if_pos h]
          have hp : 0 < pat.length := List.length_pos.mpr h.1
          have hlen : ((c :: s).drop pat.length).length ≤ f := by
            simp only [List.length_drop, List.length_cons]
            simp only [List.length_cons] at hf
            omega
          have hlen2 : ((c :: s).drop pat.length).length ≤ g := by
            simp only [List.length_drop, List.length_cons]
            simp only [List.length_cons] at hg
            omega
          rw [ih g _ hlen hlen2]
        · simp only [if_neg h]
          simp only [List.length_cons] at hf hg
          rw [ih g s (by omega) (by omega)]

theorem replaceAll_nil {α : Type} [DecidableEq α] (pat rep : List α) :
    replaceAll pat rep [] = [] := rfl

theorem replaceAll_cons_pos {α : Type} [DecidableEq α] (pat rep : List α) (c : α)
    (s : List α) (hne : pat ≠ []) (hpre : pat.isPrefixOf (c :: s)) :
    replaceAll pat rep (c :: s) = rep ++ replaceAll pat rep ((c :: s).drop pat.length) := by
  unfold replaceAll
  simp only [List.length_cons, replaceAllF, if_pos (And.intro hne hpre)]
  congr 1
  exact replaceAllF_fuel pat rep s.length _ _
    (by simp only [List.length_drop, List.length_cons]
        have : 0 < pat.length := List.length_pos.mpr hne
        omega)
    (le_refl _)

theorem replaceAll_cons_neg {α : Type} [DecidableEq α] (pat rep : List α) (c : α)
    (s : List α) (h : ¬ (pat ≠ [] ∧ pat.isPrefixOf (c :: s))) :
    replaceAll pat rep (c :: s) = c :: replaceAll pat rep s := by
  unfold replaceAll
  simp only [List.length_cons, replaceAllF, if_neg h]

/-- `replaceSuffix` from `robotstxt.go`: if `suffix` ends `s`, replace it
by `replacement`, otherwise return `s` unchanged. -/
def replaceSuffix {α : Type} [DecidableEq α] (s suffix replacement : List α) : List α :=
  if suffix.isSuffixOf s then s.take (s.length - suffix.length) ++ replacement else s

/-- `isPattern` from `robotstxt.go`: the raw directive path is a pattern
iff it contains `*` or ends with `$`. -/
def isPattern (path : List Char) : Bool :=
  path.contains '*' || path.getLast? = some '$'

/-- `normaliseUserAgent` from `robotstxt.go`: cut at the first `/`, trim
whitespace, lower-case. -/
def normaliseUserAgent (ua : List Char) : List Char :=
  toLowerList (trimSpace (ua.takeWhile (fun c => c ≠ '/')))

/-! ## Bytes, UTF-8 and percent-decoding -/

/-- UTF-8 encoding of one Unicode scalar value, as Go lays out string
bytes. -/
def utf8Encode (c : Char) : List Nat :=
  let n := c.toNat
  if n < 128 then [n]
  else if n < 2048 then [192 + n / 64, 128 + n % 64]
  else if n < 65536 then [224 + n / 4096, 128 + (n / 64) % 64, 128 + n % 64]
  else [240 + n / 262144, 128 + (n / 4096) % 64, 128 + (n / 64) % 64, 128 + n % 64]

/-- The UTF-8 bytes of a character-level string. -/
def strBytes (l : List Char) : List Nat :=
  (l.map utf8Encode).flatten

/-- Value of one hex digit, as accepted by `net/url`'s `ishex`. -/
def hexVal (c : Char) : Option Nat :=
  if 48 ≤ c.toNat ∧ c.toNat ≤ 57 then some (c.toNat - 48)
  else if 65 ≤ c.toNat ∧ c.toNat ≤ 70 then some (c.toNat - 55)
  else if 97 ≤ c.toNat ∧ c.toNat ≤ 102 then some (c.toNat - 87)
  else none

/-- Fuelled worker for `pathUnescape`; one unit of fuel per input
character consumed, so `length` units never run out. -/
def pathUnescapeF : Nat → List Char → Option (List Nat)
  | _, [] => some []
  | 0, _ => none
  | f + 1, c :: rest =>
    if c = '%' then
      if 2 ≤ rest.length then
        (hexVal rest.headI).bind fun hi =>
          (hexVal rest.tail.headI).bind fun lo =>
            (fun bs => (16 * hi + lo) :: bs) <$> pathUnescapeF f rest.tail.tail
      else none
    else (fun bs => utf8Encode c ++ bs) <$> pathUnescapeF f rest

/-- Go `url.PathUnescape`: decode `%XX` escapes to raw bytes, failing on a
`%` not followed by two hex digits.  Characters other than `%` contribute
their UTF-8 bytes. -/
def pathUnescape (s : List Char) : Option (List Nat) :=
  pathUnescapeF s.length s

theorem pathUnescapeF_fuel : ∀ (f g : Nat) (s : List Char), s.length ≤ f → s.length ≤ g →
    pathUnescapeF f s = pathUnescapeF g s := by
  intro f
  induction f with
  | zero =>
    intro g s hf _
    have : s = [] := List.length_eq_zero.mp (Nat.le_zero.mp hf)
    subst this
    cases g <;> rfl
  | succ f ih =>
    intro g s hf hg
    cases s with
    | nil => cases g <;> rfl
    | cons c rest =>
      cases g with
      | zero => simp at hg
      | succ g =>
        show (if c = '%' then _ else _) = (if c = '%' then _ else _)
        simp only [List.length_cons] at hf hg
        by_cases hc : c = '%'
        · rw [if_pos hc, if_pos hc]
          by_cases hl : 2 ≤ rest.length
          · rw [if_pos hl, if_pos hl]
            have hlen : rest.tail.tail.length ≤ f := by
              simp only [List.length_tail]
              omega
            have hlen2 : rest.tail.tail.length ≤ g := by
              simp only [List.length_tail]
              omega
            rw [ih g rest.tail.tail hlen hlen2]
          · rw [if_neg hl, if_neg hl]
        · rw [if_neg hc, if_neg hc, ih g rest (by omega) (by omega)]

theorem pathUnescape_nil : pathUnescape [] = some [] := rfl

theorem pathUnescape_cons (c : Char) (rest : List Char) :
    pathUnescape (c :: rest) =
      if c = '%' then
        if 2 ≤ rest.length then
          (hexVal rest.headI).bind fun hi =>
            (hexVal rest.tail.headI).bind fun lo =>
              (fun bs => (16 * hi + lo) :: bs) <$> pathUnescape rest.tail.tail
        else none
      else (fun bs => utf8Encode c ++ bs) <$> pathUnescape rest := by
  show (if c = '%' then _ else _) = _
  by_cases hc : c = '%'
  · rw [if_pos hc, if_pos hc]
    by_cases hl : 2 ≤ rest.length
    · rw [if_pos hl, if_pos hl]
      rw [show pathUnescape rest.tail.tail = pathUnescapeF rest.tail.tail.length rest.tail.tail
          from rfl,
        pathUnescapeF_fuel rest.length rest.tail.tail.length rest.tail.tail
          (by simp only [List.length_tail]; omega) (le_refl _)]
    · rw [if_neg hl, if_neg hl]
  · rw [if_neg hc, if_neg hc,
      show pathUnescape rest = pathUnescapeF rest.length rest from rfl]

/-! ## The regex fragment emitted by `compilePattern` -/

/-- The bytes escaped by Go `regexp.QuoteMeta`: `\.+*?()|[]{}^$`. -/
def special (b : Nat) : Bool :=
  b = 92 || b = 46 || b = 43 || b = 42 || b = 63 || b = 40 || b = 41 ||
    b = 124 || b = 91 || b = 93 || b = 123 || b = 125 || b = 94 || b = 36

/-- Go `regexp.QuoteMeta` on a byte string: prepend a backslash to every
special byte. -/
def quoteMeta : List Nat → List Nat
  | [] => []
  | b :: bs => (if special b then [92, b] else [b]) ++ quoteMeta bs

/-- One token of a compiled pattern: a literal rune or a `(?:.*)`
wildcard group. -/
inductive RTok where
  | lit : Nat → RTok
  | wild : RTok
deriving DecidableEq, Repr

/-- A compiled pattern: its tokens and whether it ends in a `$` end-of
text anchor. -/
structure Regexp where
  toks : List RTok
  anchored : Bool
deriving DecidableEq, Repr

/-- ASCII letters and digits; Go's regexp parser rejects `\c` for
alphanumeric `c` and accepts it as a literal for other ASCII. -/
def isAlnumByte (b : Nat) : Bool :=
  (48 ≤ b && b ≤ 57) || (65 ≤ b && b ≤ 90) || (97 ≤ b && b ≤ 122)

/-- A UTF-8 continuation byte. -/
def contByte (b : Nat) : Bool :=
  128 ≤ b && b ≤ 191

/-- Rune value of a two-byte UTF-8 sequence. -/
def rune2 (b0 b1 : Nat) : Nat :=
  (b0 - 192) * 64 + (b1 - 128)

/-- Rune value of a three-byte UTF-8 sequence. -/
def rune3 (b0 b1 b2 : Nat) : Nat :=
  (b0 - 224) * 4096 + (b1 - 128) * 64 + (b2 - 128)

/-- Rune value of a four-byte UTF-8 sequence. -/
def rune4 (b0 b1 b2 b3 : Nat) : Nat :=
  (b0 - 240) * 262144 + (b1 - 128) * 4096 + (b2 - 128) * 64 + (b3 - 128)

/-- Valid second byte after a three-byte lead, following Go
`utf8.DecodeRune`'s accept ranges (surrogates excluded). -/
def accept3 (b0 b1 : Nat) : Bool :=
  if b0 = 224 then 160 ≤ b1 && b1 ≤ 191
  else if b0 = 237 then 128 ≤ b1 && b1 ≤ 159
  else contByte b1

/-- Valid second byte after a four-byte lead, following Go
`utf8.DecodeRune`'s accept ranges. -/
def accept4 (b0 b1 : Nat) : Bool :=
  if b0 = 240 then 144 ≤ b1 && b1 ≤ 191
  else if b0 = 244 then 128 ≤ b1 && b1 ≤ 143
  else contByte b1

/-- One unit consumed by the regex parser: the token it yields and the
remaining bytes.  `none` when Go `regexp.Compile` would reject the
pattern here: a dangling or alphanumeric escape, a bare metacharacter,
a group other than `(?:.*)`, or invalid UTF-8
(`regexp/syntax.ErrInvalidUTF8`).  A bare `$` is handled by the caller,
which accepts it only as the final end-of-text anchor — the one place
the reachable patterns ever put it. -/
def parseStep (b : Nat) (rest : List Nat) : Option (RTok × List Nat) :=
  if b = 36 then none
  else if b = 92 then
    if rest = [] then none
    else if rest.headI < 128 && !isAlnumByte rest.headI then
      some (RTok.lit rest.headI, rest.tail)
    else none
  else if b = 40 then
    if rest.take 5 = [63, 58, 46, 42, 41] then some (RTok.wild, rest.drop 5) else none
  else if b < 128 then
    if special b then none else some (RTok.lit b, rest)
  else if 194 ≤ b ∧ b ≤ 223 then
    if contByte rest.headI then some (RTok.lit (rune2 b rest.headI), rest.tail) else none
  else if 224 ≤ b ∧ b ≤ 239 then
    if accept3 b rest.headI && contByte rest.tail.headI then
      some (RTok.lit (rune3 b rest.headI rest.tail.headI), rest.tail.tail)
    else none
  else if 240 ≤ b ∧ b ≤ 244 then
    if accept4 b rest.headI && contByte rest.tail.headI && contByte rest.tail.tail.headI then
      some (RTok.lit (rune4 b rest.headI rest.tail.headI rest.tail.tail.headI),
        rest.tail.tail.tail)
    else none
  else none

/-- Fuelled regex-parsing loop; one unit of fuel per byte consumed, so
`length + 1` units never run out. -/
def parseRegexF : Nat → List Nat → Option (List RTok × Bool)
  | _, [] => some ([], false)
  | 0, _ => none
  | f + 1, b :: rest =>
    if b = 36 ∧ rest = [] then some ([], true)
    else (parseStep b rest).bind fun p => (fun q => (p.1 :: q.1, q.2)) <$> parseRegexF f p.2

/-- Parser for the regex fragment reachable from `compilePattern`,
modelling when Go `regexp.Compile` succeeds on such a pattern and what
it matches. -/
def parseRegexAux (bs : List Nat) : Option (List RTok × Bool) :=
  parseRegexF bs.length bs

/-- Model of Go `regexp.Compile` on the fragment emitted by
`compilePattern`. -/
def parseRegex (bs : List Nat) : Option Regexp :=
  (fun p => Regexp.mk p.1 p.2) <$> parseRegexAux bs

/-- The bytes of `(?:.*)`. -/
def wildBytes : List Nat := [40, 63, 58, 46, 42, 41]

/-- The bytes of `%24`. -/
def pct24 : List Nat := [37, 50, 52]

/-- The bytes of `%2524`. -/
def pct2524 : List Nat := [37, 50, 53, 50, 52]

/-- The bytes of `%2A`. -/
def pct2A : List Nat := [37, 50, 65]

/-- `compilePattern` from `robotstxt.go`: quote the path, turn escaped
`*` into the wildcard group, turn a trailing escaped `$` into the anchor,
a trailing `%24` into a literal `$`, a trailing `%2524` into `%24`, every
`%2A` into a literal `*`, and compile. -/
def compilePattern (p : List Nat) : Option Regexp :=
  let p1 := quoteMeta p
  let p2 := replaceAll [92, 42] wildBytes p1
  let p3 := replaceSuffix p2 [92, 36] [36]
  let p4 := replaceSuffix p3 pct24 [92, 36]
  let p5 := replaceSuffix p4 pct2524 pct24
  let p6 := replaceAll pct2A [92, 42] p5
  parseRegex p6

/-! ## Matching -/

/-- Fuelled worker for `bytesToRunes`; every step consumes at least one
byte, so `s.length` units of fuel never run out. -/
def bytesToRunesF : Nat → List Nat → List Nat
  | _, [] => []
  | 0, _ => []
  | f + 1, b :: rest =>
    if b < 128 then b :: bytesToRunesF f rest
    else
      match rest with
      | b1 :: rest1 =>
        if 194 ≤ b ∧ b ≤ 223 then
          if contByte b1 then rune2 b b1 :: bytesToRunesF f rest1
          else 65533 :: bytesToRunesF f rest
        else
          match rest1 with
          | b2 :: rest2 =>
            if 224 ≤ b ∧ b ≤ 239 then
              if accept3 b b1 && contByte b2 then rune3 b b1 b2 :: bytesToRunesF f rest2
              else 65533 :: bytesToRunesF f rest
            else
              match rest2 with
              | b3 :: rest3 =>
                if 240 ≤ b ∧ b ≤ 244 then
                  if accept4 b b1 && contByte b2 && contByte b3 then
                    rune4 b b1 b2 b3 :: bytesToRunesF f rest3
                  else 65533 :: bytesToRunesF f rest
                else 65533 :: bytesToRunesF f rest
              | [] => 65533 :: bytesToRunesF f rest
          | [] => 65533 :: bytesToRunesF f rest
      | [] => [65533]

/-- Go `utf8`-decoding of a byte string into runes, as the regexp engine
reads its input: an invalid byte decodes to U+FFFD and advances by one. -/
def bytesToRunes (s : List Nat) : List Nat :=
  bytesToRunesF s.length s

/-- Fuelled worker for `matchHere`; every recursive call shrinks the
token list or the string, so `ts.length + s.length + 1` units never run
out. -/
def matchHereF : Nat → List RTok → Bool → List Nat → Bool
  | 0, _, _, _ => false
  | _ + 1, [], anch, s => !anch || s.isEmpty
  | _ + 1, RTok.lit _ :: _, _, [] => false
  | f + 1, RTok.lit c :: ts, anch, r :: rs => c = r && matchHereF f ts anch rs
  | f + 1, RTok.wild :: ts, anch, [] => matchHereF f ts anch []
  | f + 1, RTok.wild :: ts, anch, r :: rs =>
    matchHereF f ts anch (r :: rs) || (r ≠ 10 && matchHereF f (RTok.wild :: ts) anch rs)

/-- Match the token list against the rune string starting at its head.
With the anchor set the match must consume the whole string.  A wildcard
group steps over any rune except newline, as Go's `.` does. -/
def matchHere (ts : List RTok) (anch : Bool) (s : List Nat) : Bool :=
  matchHereF (ts.length + s.length + 1) ts anch s

/-- Search for a match at any starting position, as Go
`Regexp.MatchString` does. -/
def matchSearch (ts : List RTok) (anch : Bool) : List Nat → Bool
  | [] => matchHere ts anch []
  | r :: rs => matchHere ts anch (r :: rs) || matchSearch ts anch rs

/-- Go `rule.pattern.MatchString(path)`: decode the path's bytes to runes
and search. -/
def reMatch (re : Regexp) (pathBytes : List Nat) : Bool :=
  matchSearch re.toks re.anchored (bytesToRunes pathBytes)

/-! ## Rules, groups and the matching engine -/

/-- `rule` from `robotstxt.go`: `pattern = none` marks a literal-prefix
rule using `path`; otherwise the compiled pattern decides. -/
structure Rule where
  ruleIsAllowed : Bool
  path : List Nat
  pattern : Option Regexp
deriving DecidableEq, Repr

/-- `group` from `robotstxt.go` (named `RGroup` here since Mathlib takes
`Group`): ordered rules and a crawl delay.  The delay is stored as
`time.Duration` integer nanoseconds, exactly as in Go. -/
structure RGroup where
  rules : List Rule
  crawlDelay : Int
deriving DecidableEq

/-- The loop body of `group.isAllowed`, with the `result table` and
`resultPathLength` accumulator made explicit. -/
def isAllowedLoop : List Rule → List Nat → Bool → Nat → Bool
  | [], _, result, _ => result
  | r :: rs, path, result, best =>
    match r.pattern with
    | some re =>
      if reMatch re path then r.ruleIsAllowed
      else isAllowedLoop rs path result best
    | none =>
      if best > r.path.length then isAllowedLoop rs path result best
      else if r.path.isPrefixOf path then isAllowedLoop rs path r.ruleIsAllowed r.path.length
      else isAllowedLoop rs path result best

/-- `group.isAllowed` from `robotstxt.go` (its unused `userAgent`
parameter is omitted): scan the rules in order with default `true`. -/
def groupIsAllowed (g : RGroup) (path : List Nat) : Bool :=
  isAllowedLoop g.rules path true 0

/-- A rule is a pattern rule matching `path`. -/
def patternMatches (r : Rule) (path : List Nat) : Bool :=
  match r.pattern with
  | some re => reMatch re path
  | none => false

/-- The literal-prefix rules of the list whose stored path is a prefix of
the queried path, in order. -/
def matchingLiterals (rules : List Rule) (path : List Nat) : List Rule :=
  rules.filter (fun r => r.pattern = none && r.path.isPrefixOf path)

/-- The selection the specification describes for literal rules: keep the
rule whose path is longest, a later rule overwriting an equally long
earlier one. -/
def lastLongest (rules : List Rule) : Option Rule :=
  rules.foldl
    (fun acc r =>
      match acc with
      | none => some r
      | some a => if a.path.length ≤ r.path.length then some r else some a)
    none

/-! ## The parsed file, directive parser and query façade -/

/-- The scheme/host/path triple of a parsed-and-normalized URL.  `path`
holds the decoded path bytes, as Go `url.URL.Path` does. -/
structure ModelURL where
  scheme : List Char
  host : List Char
  path : List Nat
deriving DecidableEq, Repr

/-- `RobotsTxt` from `robotstxt.go`.  The Go `map[string]*group` is
modelled as an association list keyed by the normalized user-agent; only
lookups and in-place updates are performed on it, so the representation
is observationally equivalent. -/
structure Robots where
  url : ModelURL
  groups : List (List Char × RGroup)
  sitemaps : List (List Char)
  host : List Char
deriving DecidableEq

/-- Association-list lookup standing in for Go map indexing. -/
def lookupGroup : List (List Char × RGroup) → List Char → Option RGroup
  | [], _ => none
  | (k, g) :: rest, ua => if k = ua then some g else lookupGroup rest ua

/-- Store a group under a key: overwrite the existing binding in place,
or append a new one.  This mirrors mutation of the Go map entry. -/
def setGroup : List (List Char × RGroup) → List Char → RGroup → List (List Char × RGroup)
  | [], ua, g => [(ua, g)]
  | (k, g0) :: rest, ua, g =>
    if k = ua then (ua, g) :: rest else (k, g0) :: setGroup rest ua g

/-- The characters of `%24`. -/
def pct24c : List Char := ['%', '2', '4']

/-- The characters of `%2524`. -/
def pct2524c : List Char := ['%', '2', '5', '2', '4']

/-- The characters of `%2A`. -/
def pct2Ac : List Char := ['%', '2', 'A']

/-- The characters of `%252A`. -/
def pct252Ac : List Char := ['%', '2', '5', '2', 'A']

/-- The path-processing part of `addPathRule`: protect a trailing `%24`
of a pattern path, keep `%2A` escaped across the percent-decode, then
decode; if decoding fails, fall back to the raw characters with `%2A`
restored.  The result is the byte string the rule stores or compiles. -/
def processPath (path : List Char) : List Nat :=
  let p1 := if isPattern path then replaceSuffix path pct24c pct2524c else path
  let p2 := replaceAll pct2Ac pct252Ac p1
  match pathUnescape p2 with
  | some bs => bs
  | none => strBytes (replaceAll pct252Ac pct2Ac p2)

/-- `RobotsTxt.addPathRule` from `robotstxt.go`: create the agent's group
if needed, process the path, and append a pattern rule (dropping it when
compilation fails) or a literal rule. -/
def addPathRule (gs : List (List Char × RGroup)) (ua : List Char) (path : List Char)
    (allow : Bool) : List (List Char × RGroup) :=
  let g := (lookupGroup gs ua).getD ⟨[], 0⟩
  let pbytes := processPath path
  if isPattern path then
    match compilePattern pbytes with
    | none => setGroup gs ua g
    | some re =>
      setGroup gs ua { g with rules := g.rules ++ [⟨allow, [], some re⟩] }
  else
    setGroup gs ua { g with rules := g.rules ++ [⟨allow, pbytes, none⟩] }

/-- An exact decimal floating-point value `mant * 10 ^ pow10`, the result
of parsing a crawl-delay literal. -/
structure DecFloat where
  mant : Int
  pow10 : Int
deriving DecidableEq

/-- Candidate digits at the front of a string. -/
def takeDigits (l : List Char) : List Char × List Char :=
  (l.takeWhile (fun c => 48 ≤ c.toNat ∧ c.toNat ≤ 57),
   l.dropWhile (fun c => 48 ≤ c.toNat ∧ c.toNat ≤ 57))

/-- Numeric value of a digit string. -/
def digitsToNat (l : List Char) : Nat :=
  l.foldl (fun acc c => acc * 10 + (c.toNat - 48)) 0

/-- Model of Go `strconv.ParseFloat` restricted to plain decimal notation
`[+-] digits [. digits] [eE [+-] digits]` (at least one mantissa digit,
full consumption required).  The value is kept exact; `Inf`/`NaN`,
hexadecimal floats, digit-separating underscores, out-of-range errors and
the rounding of the result to a binary `float64` are outside the model —
no robots.txt crawl-delay exercised here depends on them. -/
def parseGoFloat (s : List Char) : Option DecFloat :=
  let (sign, s1) :=
    match s with
    | '+' :: rest => ((1 : Int), rest)
    | '-' :: rest => ((-1 : Int), rest)
    | rest => ((1 : Int), rest)
  let (intPart, s2) := takeDigits s1
  let (fracPart, s3) :=
    match s2 with
    | '.' :: rest => takeDigits rest
    | rest => ([], rest)
  if intPart = [] ∧ fracPart = [] then none
  else
    let mant : Int := sign * (digitsToNat (intPart ++ fracPart) : Int)
    match s3 with
    | [] => some ⟨mant, -(fracPart.length : Int)⟩
    | e :: rest =>
      if e = 'e' ∨ e = 'E' then
        let (esign, r1) :=
          match rest with
          | '+' :: r => ((1 : Int), r)
          | '-' :: r => ((-1 : Int), r)
          | r => ((1 : Int), r)
        let (edigits, r2) := takeDigits r1
        if edigits = [] ∨ r2 ≠ [] then none
        else some ⟨mant, esign * (digitsToNat edigits : Int) - (fracPart.length : Int)⟩
      else none

/-- `time.Duration(delay * float64(time.Second))`: the parsed value in
nanoseconds, truncated toward zero as Go's float-to-integer conversion
does. -/
def decNanos (d : DecFloat) : Int :=
  let p := d.pow10 + 9
  if 0 ≤ p then d.mant * 10 ^ p.toNat else Int.tdiv d.mant (10 ^ (-p).toNat)

/-- `RobotsTxt.addCrawlDelay` from `robotstxt.go`: create the agent's
group if needed; store the parsed delay, or leave the previous delay
when the value does not parse. -/
def addCrawlDelay (gs : List (List Char × RGroup)) (ua : List Char)
    (val : List Char) : List (List Char × RGroup) :=
  let g := (lookupGroup gs ua).getD ⟨[], 0⟩
  match parseGoFloat val with
  | some q => setGroup gs ua { g with crawlDelay := decNanos q }
  | none => setGroup gs ua g

/-- The line-loop state of `Parse`: the `RobotsTxt` being built, the
active user-agents and the `isNoneUserAgentState` flag. -/
structure ParseState where
  robots : Robots
  userAgents : List (List Char)
  isNoneUserAgentState : Bool
deriving DecidableEq

/-- The key strings recognized by the parser. -/
def uaKey : List Char := "user-agent".data

/-- One iteration of the line loop of `Parse`: split on the first colon
(no colon: ignore the line entirely), trim key and value, dispatch on the
lower-cased key, and record whether this directive line was a
`user-agent` line. -/
def parseLine (s : ParseState) (line : List Char) : ParseState :=
  match splitFirstColon line with
  | none => s
  | some (k, v) =>
    let key := toLowerList (trimSpace k)
    let val := trimSpace v
    let s1 :=
      if key = uaKey then
        { s with
          userAgents :=
            (if s.isNoneUserAgentState then [] else s.userAgents) ++ [normaliseUserAgent val] }
      else if key = "allow".data then
        { s with robots :=
            { s.robots with
              groups := s.userAgents.foldl (fun gs ua => addPathRule gs ua val true) s.robots.groups } }
      else if key = "disallow".data then
        { s with robots :=
            { s.robots with
              groups := s.userAgents.foldl (fun gs ua => addPathRule gs ua val false) s.robots.groups } }
      else if key = "crawl-delay".data then
        { s with robots :=
            { s.robots with
              groups := s.userAgents.foldl (fun gs ua => addCrawlDelay gs ua val) s.robots.groups } }
      else if key = "sitemap".data then
        if val ≠ [] then
          { s with robots := { s.robots with sitemaps := s.robots.sitemaps ++ [val] } }
        else s
      else if key = "host".data then
        if val ≠ [] then { s with robots := { s.robots with host := val } }
        else s
      else s
    { s1 with isNoneUserAgentState := key ≠ uaKey }

/-- `parseAndNormalizeURL` from `robotstxt.go`, parameterized by the two
external collaborators it calls: `net/url.Parse` and `idna.ToASCII`.
Both failure modes surface as `none`, exactly as both make the Go
function return a non-nil error that every caller treats alike. -/
def parseAndNormalizeURL (up : List Char → Option ModelURL)
    (ta : List Char → Option (List Char)) (s : List Char) : Option ModelURL :=
  match up s with
  | none => none
  | some u =>
    match ta u.host with
    | none => none
    | some h => some { u with host := h }

/-- `Parse` from `robotstxt.go`: normalize the file's own URL (the only
fatal failure), then run the line loop over the contents split on
newlines. -/
def Parse (up : List Char → Option ModelURL) (ta : List Char → Option (List Char))
    (contents : List Char) (urlStr : List Char) : Option Robots :=
  match parseAndNormalizeURL up ta urlStr with
  | none => none
  | some u =>
    some (((splitLines contents).foldl parseLine
      ⟨⟨u, [], [], []⟩, [], false⟩).robots)

/-- The two error kinds `RobotsTxt.IsAllowed` can surface. -/
inductive RobotsErr where
  | malformedURL
  | invalidHost
deriving DecidableEq, Repr

deriving instance DecidableEq for Except

/-- `RobotsTxt.CrawlDelay` from `robotstxt.go`: the agent's own group if
one exists, else the `*` group, else 0 (a `time.Duration` in integer
nanoseconds). -/
def CrawlDelay (r : Robots) (ua : List Char) : Int :=
  match lookupGroup r.groups (normaliseUserAgent ua) with
  | some g => g.crawlDelay
  | none =>
    match lookupGroup r.groups ['*'] with
    | some g => g.crawlDelay
    | none => 0

/-- `RobotsTxt.IsAllowed` from `robotstxt.go`: parse and normalize the
queried URL (failure: malformed-URL error), reject a scheme or host
differing from the file's own (invalid-host error), then delegate to the
agent's group, falling back to `*` only when the agent has no group, and
defaulting to `true`. -/
def IsAllowed (up : List Char → Option ModelURL) (ta : List Char → Option (List Char))
    (r : Robots) (ua : List Char) (urlStr : List Char) : Except RobotsErr Bool :=
  match parseAndNormalizeURL up ta urlStr with
  | none => .error .malformedURL
  | some u =>
    if u.scheme ≠ r.url.scheme ∨ u.host ≠ r.url.host then .error .invalidHost
    else
      match lookupGroup r.groups (normaliseUserAgent ua) with
      | some g => .ok (groupIsAllowed g u.path)
      | none =>
        match lookupGroup r.groups ['*'] with
        | some g => .ok (groupIsAllowed g u.path)
        | none => .ok true

/-! ## Concrete models of the external URL collaborators

The two parameters above abstract library code outside this repository
(`net/url`, `golang.org/x/net/idna`).  For concrete scenarios we
instantiate them with small models adequate for the URLs exercised:
absolute `scheme://host/path` URLs with ASCII hosts. -/

/-- Split at the first `://`. -/
def splitScheme : List Char → Option (List Char × List Char)
  | ':' :: '/' :: '/' :: rest => some ([], rest)
  | [] => none
  | c :: cs => (fun p => (c :: p.1, p.2)) <$> splitScheme cs

/-- Model of `net/url.Parse` for absolute URLs: lower-case the scheme
(as `net/url` does), take the host up to the first `/`, `?` or `#`, cut
the path at `?` or `#` (query and fragment are not part of `URL.Path`)
and percent-decode it, failing on an invalid escape exactly as
`net/url.Parse` fails with an `EscapeError`. -/
def modelURLParse (s : List Char) : Option ModelURL :=
  match splitScheme s with
  | none => none
  | some (scheme, rest) =>
    let host := rest.takeWhile (fun c => c ≠ '/' ∧ c ≠ '?' ∧ c ≠ '#')
    let rawPath := (rest.drop host.length).takeWhile (fun c => c ≠ '?' ∧ c ≠ '#')
    match pathUnescape rawPath with
    | none => none
    | some pbytes => some ⟨toLowerList scheme, host, pbytes⟩

/-- Model of `idna.ToASCII` on ASCII hosts: such hosts pass through
unchanged (the punycode conversion only rewrites non-ASCII labels). -/
def modelToASCII (h : List Char) : Option (List Char) :=
  if h.all (fun c => c.toNat < 128) then some h else none

/-! ## C1 and C2: the rule-matching engine -/

/-- The accumulator step `lastLongest` folds with. -/
def llStep (acc : Option Rule) (r : Rule) : Option Rule :=
  match acc with
  | none => some r
  | some a => if a.path.length ≤ r.path.length then some r else some a

theorem lastLongest_eq_foldl (rules : List Rule) :
    lastLongest rules = rules.foldl llStep none := by
  unfold lastLongest llStep
  rfl

/-- The permission an optional deciding rule yields, `true` by default. -/
def permOf : Option Rule → Bool
  | none => true
  | some r => r.ruleIsAllowed

/-- The literal-rule scan the specification describes, over the rules
that already matched: adopt a rule unless it is strictly shorter than the
best so far. -/
def litScan : List Rule → Bool → Nat → Bool
  | [], result, _ => result
  | r :: rs, result, best =>
    if best > r.path.length then litScan rs result best
    else litScan rs r.ruleIsAllowed r.path.length

theorem isAllowedLoop_append_first_pattern (path : List Nat) (r : Rule) (l2 : List Rule)
    (hmatch : patternMatches r path = true) :
    ∀ (l1 : List Rule), (∀ x ∈ l1, patternMatches x path = false) →
      ∀ result best, isAllowedLoop (l1 ++ r :: l2) path result best = r.ruleIsAllowed := by
  intro l1
  induction l1 with
  | nil =>
    intro _ result best
    cases hp : r.pattern with
    | none => simp [patternMatches, hp] at hmatch
    | some re =>
      have hm : reMatch re path = true := by
        simpa [patternMatches, hp] using hmatch
      simp [isAllowedLoop, hp, hm]
  | cons x l1 ih =>
    intro hall result best
    have hx : patternMatches x path = false := hall x (by simp)
    have hrest : ∀ y ∈ l1, patternMatches y path = false := fun y hy => hall y (by simp [hy])
    cases hp : x.pattern with
    | none =>
      by_cases h1 : best > x.path.length
      · simpa [isAllowedLoop, hp, h1] using ih hrest result best
      · by_cases h2 : x.path.isPrefixOf path
        · simpa [isAllowedLoop, hp, h1, h2] using ih hrest x.ruleIsAllowed x.path.length
        · simpa [isAllowedLoop, hp, h1, h2] using ih hrest result best
    | some re =>
      have hm : reMatch re path = false := by
        simpa [patternMatches, hp] using hx
      simpa [isAllowedLoop, hp, hm] using ih hrest result best

/-- C1: for every rule set and request path, if any pattern rule in the
set matches the path, `isAllowed` returns the permission of the first
pattern rule (in insertion order) whose compiled form matches,
short-circuiting the scan — regardless of any literal rules before or
after it, in particular a later literal rule with a longer matching
prefix. -/
theorem c1_first_matching_pattern_wins (g : RGroup) (path : List Nat) (r : Rule)
    (l1 l2 : List Rule) (hsplit : g.rules = l1 ++ r :: l2)
    (hmatch : patternMatches r path = true)
    (hbefore : ∀ x ∈ l1, patternMatches x path = false) :
    groupIsAllowed g path = r.ruleIsAllowed := by
  unfold groupIsAllowed
  rw [hsplit]
  exact isAllowedLoop_append_first_pattern path r l2 hmatch l1 hbefore true 0

/-- Witness rule set for C1: a matching pattern rule followed by a longer
matching literal rule with the opposite permission. -/
def c1G : RGroup :=
  ⟨[⟨false, [], some ⟨[RTok.lit 47], false⟩⟩, ⟨true, [47, 97], none⟩], 0⟩

theorem c1_first_matching_pattern_wins_witness :
    groupIsAllowed c1G [47, 97, 98] = false :=
  c1_first_matching_pattern_wins c1G [47, 97, 98]
    ⟨false, [], some ⟨[RTok.lit 47], false⟩⟩ [] [⟨true, [47, 97], none⟩]
    (by decide) (by decide) (by decide)

theorem isAllowedLoop_eq_litScan (path : List Nat) :
    ∀ (rules : List Rule), (∀ x ∈ rules, patternMatches x path = false) →
      ∀ result best,
        isAllowedLoop rules path result best =
          litScan (matchingLiterals rules path) result best := by
  intro rules
  induction rules with
  | nil => intro _ result best; simp [isAllowedLoop, matchingLiterals, litScan]
  | cons r rs ih =>
    intro hall result best
    have hr : patternMatches r path = false := hall r (by simp)
    have hrest : ∀ y ∈ rs, patternMatches y path = false := fun y hy => hall y (by simp [hy])
    cases hp : r.pattern with
    | some re =>
      have hm : reMatch re path = false := by
        simpa [patternMatches, hp] using hr
      simpa [isAllowedLoop, hp, hm, matchingLiterals] using ih hrest result best
    | none =>
      by_cases hpre : r.path.isPrefixOf path
      · by_cases h1 : best > r.path.length
        · rw [show isAllowedLoop (r :: rs) path result best =
              isAllowedLoop rs path result best by simp [isAllowedLoop, hp, h1]]
          rw [show matchingLiterals (r :: rs) path = r :: matchingLiterals rs path by
            simp [matchingLiterals, hp, hpre]]
          rw [show litScan (r :: matchingLiterals rs path) result best =
              litScan (matchingLiterals rs path) result best by simp [litScan, h1]]
          exact ih hrest result best
        · rw [show isAllowedLoop (r :: rs) path result best =
              isAllowedLoop rs path r.ruleIsAllowed r.path.length by
            simp [isAllowedLoop, hp, h1, hpre]]
          rw [show matchingLiterals (r :: rs) path = r :: matchingLiterals rs path by
            simp [matchingLiterals, hp, hpre]]
          rw [show litScan (r :: matchingLiterals rs path) result best =
              litScan (matchingLiterals rs path) r.ruleIsAllowed r.path.length by
            simp [litScan, h1]]
          exact ih hrest r.ruleIsAllowed r.path.length
      · have hml : matchingLiterals (r :: rs) path = matchingLiterals rs path := by
          simp [matchingLiterals, hpre]
        by_cases h1 : best > r.path.length
        · rw [show isAllowedLoop (r :: rs) path result best =
              isAllowedLoop rs path result best by simp [isAllowedLoop, hp, h1], hml]
          exact ih hrest result best
        · rw [show isAllowedLoop (r :: rs) path result best =
              isAllowedLoop rs path result best by simp [isAllowedLoop, hp, h1, hpre], hml]
          exact ih hrest result best

theorem litScan_eq_permOf_foldl :
    ∀ (ls : List Rule) (a : Rule),
      litScan ls a.ruleIsAllowed a.path.length = permOf (ls.foldl llStep (some a)) := by
  intro ls
  induction ls with
  | nil => intro a; simp [litScan, permOf]
  | cons r ls ih =>
    intro a
    by_cases h : a.path.length ≤ r.path.length
    · have h1 : ¬ a.path.length > r.path.length := by omega
      rw [show litScan (r :: ls) a.ruleIsAllowed a.path.length =
          litScan ls r.ruleIsAllowed r.path.length by simp [litScan, h1]]
      rw [show (r :: ls).foldl llStep (some a) = ls.foldl llStep (some r) by
        simp [List.foldl_cons, llStep, h]]
      exact ih r
    · have h1 : a.path.length > r.path.length := by omega
      rw [show litScan (r :: ls) a.ruleIsAllowed a.path.length =
          litScan ls a.ruleIsAllowed a.path.length by simp [litScan, h1]]
      rw [show (r :: ls).foldl llStep (some a) = ls.foldl llStep (some a) by
        simp [List.foldl_cons, llStep, h]]
      exact ih a

theorem litScan_initial (ls : List Rule) :
    litScan ls true 0 = permOf (lastLongest ls) := by
  rw [lastLongest_eq_foldl]
  cases ls with
  | nil => simp [litScan, permOf]
  | cons r ls =>
    rw [show litScan (r :: ls) true 0 = litScan ls r.ruleIsAllowed r.path.length by
      simp [litScan]]
    rw [show (r :: ls).foldl llStep none = ls.foldl llStep (some r) by
      simp [List.foldl_cons, llStep]]
    exact litScan_eq_permOf_foldl ls r

theorem llStep_foldl_cases :
    ∀ (ls : List Rule) (a : Rule),
      (ls.foldl llStep (some a) = some a ∧ ∀ x ∈ ls, x.path.length < a.path.length) ∨
      (∃ r l1 l2, ls.foldl llStep (some a) = some r ∧ ls = l1 ++ r :: l2 ∧
        (∀ x ∈ l2, x.path.length < r.path.length) ∧
        a.path.length ≤ r.path.length ∧
        ∀ x ∈ l1, x.path.length ≤ r.path.length) := by
  intro ls
  induction ls with
  | nil => intro a; left; simp
  | cons x ls ih =>
    intro a
    by_cases h : a.path.length ≤ x.path.length
    · have hstep : (x :: ls).foldl llStep (some a) = ls.foldl llStep (some x) := by
        simp [List.foldl_cons, llStep, h]
      rcases ih x with ⟨heq, hall⟩ | ⟨r, l1, l2, heq, hsplit, hl2, hle, hl1⟩
      · right
        exact ⟨x, [], ls, by rw [hstep, heq], by simp, hall, h, by simp⟩
      · right
        refine ⟨r, x :: l1, l2, by rw [hstep, heq], by simp [hsplit], hl2, ?_, ?_⟩
        · exact le_trans h hle
        · intro y hy
          rcases List.mem_cons.mp hy with hy | hy
          · exact hy ▸ hle
          · exact hl1 y hy
    · have hstep : (x :: ls).foldl llStep (some a) = ls.foldl llStep (some a) := by
        simp [List.foldl_cons, llStep, h]
      rcases ih a with ⟨heq, hall⟩ | ⟨r, l1, l2, heq, hsplit, hl2, hle, hl1⟩
      · left
        refine ⟨by rw [hstep, heq], ?_⟩
        intro y hy
        rcases List.mem_cons.mp hy with hy | hy
        · subst hy; omega
        · exact hall y hy
      · right
        refine ⟨r, x :: l1, l2, by rw [hstep, heq], by simp [hsplit], hl2, hle, ?_⟩
        intro y hy
        rcases List.mem_cons.mp hy with hy | hy
        · subst hy; omega
        · exact hl1 y hy

theorem lastLongest_spec (ls : List Rule) (r : Rule) (h : lastLongest ls = some r) :
    r ∈ ls ∧ (∀ x ∈ ls, x.path.length ≤ r.path.length) ∧
      ∃ l1 l2, ls = l1 ++ r :: l2 ∧ ∀ x ∈ l2, x.path.length < r.path.length := by
  rw [lastLongest_eq_foldl] at h
  cases ls with
  | nil => simp at h
  | cons x ls =>
    rw [show (x :: ls).foldl llStep none = ls.foldl llStep (some x) by
      simp [List.foldl_cons, llStep]] at h
    rcases llStep_foldl_cases ls x with ⟨heq, hall⟩ | ⟨q, l1, l2, heq, hsplit, hl2, hle, hl1⟩
    · have hrx : r = x := by rw [heq] at h; exact (Option.some_inj.mp h).symm
      subst hrx
      refine ⟨by simp, ?_, [], ls, by simp, hall⟩
      intro y hy
      rcases List.mem_cons.mp hy with hy | hy
      · simp [hy]
      · exact le_of_lt (hall y hy)
    · have hrq : r = q := by rw [heq] at h; exact (Option.some_inj.mp h).symm
      subst hrq
      have hmem : r ∈ x :: ls := by
        rw [hsplit]
        exact List.mem_cons_of_mem x (by simp)
      refine ⟨hmem, ?_, x :: l1, l2, by simp [hsplit], hl2⟩
      intro y hy
      rcases List.mem_cons.mp hy with hy | hy
      · exact hy ▸ hle
      · rw [hsplit] at hy
        rcases List.mem_append.mp hy with hy | hy
        · exact hl1 y hy
        · rcases List.mem_cons.mp hy with hy | hy
          · simp [hy]
          · exact le_of_lt (hl2 y hy)

/-- C2: when no pattern rule matches the path, `isAllowed` returns the
permission of the matching literal-prefix rule whose stored path is
longest; among matching literal rules of equal greatest length the one
declared later decides (it is followed only by strictly shorter matches);
and with no matching rule at all the result is `true`. -/
theorem c2_literal_longest_match (g : RGroup) (path : List Nat)
    (hnp : ∀ x ∈ g.rules, patternMatches x path = false) :
    groupIsAllowed g path = permOf (lastLongest (matchingLiterals g.rules path)) ∧
    (matchingLiterals g.rules path = [] → groupIsAllowed g path = true) ∧
    (∀ r, lastLongest (matchingLiterals g.rules path) = some r →
      groupIsAllowed g path = r.ruleIsAllowed ∧
      r ∈ matchingLiterals g.rules path ∧
      (∀ x ∈ matchingLiterals g.rules path, x.path.length ≤ r.path.length) ∧
      ∃ l1 l2, matchingLiterals g.rules path = l1 ++ r :: l2 ∧
        ∀ x ∈ l2, x.path.length < r.path.length) := by
  have hmain : groupIsAllowed g path = permOf (lastLongest (matchingLiterals g.rules path)) := by
    unfold groupIsAllowed
    rw [isAllowedLoop_eq_litScan path g.rules hnp true 0]
    exact litScan_initial _
  refine ⟨hmain, ?_, ?_⟩
  · intro hempty
    rw [hmain, hempty]
    simp [lastLongest, permOf]
  · intro r hr
    rcases lastLongest_spec _ r hr with ⟨hmem, hmax, l1, l2, hsplit, hstrict⟩
    exact ⟨by rw [hmain, hr, permOf], hmem, hmax, l1, l2, hsplit, hstrict⟩

/-- Witness rule set for C2: two matching literal rules of different
lengths and one non-matching, no patterns. -/
def c2G : RGroup :=
  ⟨[⟨false, [47], none⟩, ⟨true, [47, 97], none⟩, ⟨false, [47, 98], none⟩], 0⟩

theorem c2_literal_longest_match_witness :
    groupIsAllowed c2G [47, 97] = permOf (lastLongest (matchingLiterals c2G.rules [47, 97])) :=
  (c2_literal_longest_match c2G [47, 97] (by decide)).1

/-! ## Lemmas about group storage -/

theorem lookupGroup_setGroup_self (gs : List (List Char × RGroup)) (k : List Char) (g : RGroup) :
    lookupGroup (setGroup gs k g) k = some g := by
  induction gs with
  | nil => simp [setGroup, lookupGroup]
  | cons p rest ih =>
    by_cases h : p.1 = k
    · simp [setGroup, lookupGroup, h]
    · simp [setGroup, lookupGroup, h, ih]

theorem lookupGroup_setGroup_ne (gs : List (List Char × RGroup)) (k : List Char) (g : RGroup)
    (k2 : List Char) (h : k2 ≠ k) :
    lookupGroup (setGroup gs k g) k2 = lookupGroup gs k2 := by
  induction gs with
  | nil =>
    show lookupGroup [(k, g)] k2 = none
    simp only [lookupGroup]
    rw [if_neg (fun hh => h hh.symm)]
  | cons p rest ih =>
    obtain ⟨k0, g0⟩ := p
    by_cases h1 : k0 = k
    · subst h1
      simp only [setGroup, if_pos rfl, lookupGroup]
      rw [if_neg (fun hh => h hh.symm), if_neg (fun hh => h hh.symm)]
    · simp only [setGroup, if_neg h1, lookupGroup]
      by_cases h2 : k0 = k2
      · rw [if_pos h2, if_pos h2]
      · rw [if_neg h2, if_neg h2, ih]

theorem lookupGroup_addPathRule_ne (gs : List (List Char × RGroup)) (ua : List Char)
    (path : List Char) (allow : Bool) (k : List Char) (h : k ≠ ua) :
    lookupGroup (addPathRule gs ua path allow) k = lookupGroup gs k := by
  unfold addPathRule
  by_cases hp : isPattern path
  · simp only [hp, if_true]
    cases compilePattern (processPath path) with
    | none => exact lookupGroup_setGroup_ne gs ua _ k h
    | some re => exact lookupGroup_setGroup_ne gs ua _ k h
  · simp only [hp]
    exact lookupGroup_setGroup_ne gs ua _ k h

theorem lookupGroup_foldl_addPathRule_ne (uas : List (List Char)) (path : List Char)
    (allow : Bool) (k : List Char) (h : k ∉ uas) :
    ∀ gs, lookupGroup (uas.foldl (fun gs ua => addPathRule gs ua path allow) gs) k =
      lookupGroup gs k := by
  induction uas with
  | nil => intro gs; rfl
  | cons ua rest ih =>
    intro gs
    have hk : k ≠ ua := fun hh => h (by simp [hh])
    have hrest : k ∉ rest := fun hh => h (by simp [hh])
    rw [List.foldl_cons, ih hrest, lookupGroup_addPathRule_ne gs ua path allow k hk]

/-! ## C4: the effect of ignored lines -/

/-- The base URL used by the concrete scenarios. -/
def baseURL : List Char := "http://www.example.com/robots.txt".data

/-- A file in which an ignored comment line with a colon separates two
`user-agent` lines. -/
def c4TextA : List Char := "User-agent: a\n#c: x\nUser-agent: b\nDisallow: /x".data

/-- `c4TextA` with the ignored line deleted. -/
def c4TextB : List Char := "User-agent: a\nUser-agent: b\nDisallow: /x".data

/-- C4 counterexample: the claim says deleting an ignored line (here the
comment line `#c: x`, whose key `#c` is unrecognized) yields an identical
parse result.  It does not: with the comment line present the
`user-agent: b` line starts a fresh group, so agent `a` gets no rule set
at all, while with the line deleted both agents share the `/x` rule — the
two parses differ, observably in agent `a`'s rule set and answer
for `/x`. -/
theorem c4_ignored_lines_counterexample :
    Parse modelURLParse modelToASCII c4TextA baseURL ≠
      Parse modelURLParse modelToASCII c4TextB baseURL ∧
    (Parse modelURLParse modelToASCII c4TextA baseURL).map
      (fun r => (lookupGroup r.groups ['a']).isSome) = some false ∧
    (Parse modelURLParse modelToASCII c4TextB baseURL).map
      (fun r => (lookupGroup r.groups ['a']).isSome) = some true ∧
    (Parse modelURLParse modelToASCII c4TextA baseURL).map
      (fun r => IsAllowed modelURLParse modelToASCII r ['a']
        "http://www.example.com/x".data) = some (Except.ok true) ∧
    (Parse modelURLParse modelToASCII c4TextB baseURL).map
      (fun r => IsAllowed modelURLParse modelToASCII r ['a']
        "http://www.example.com/x".data) = some (Except.ok false) := by
  refine ⟨?_, by decide, by decide, by decide, by decide⟩
  decide

/-- The directive keys the parser recognizes. -/
def knownKeys : List (List Char) :=
  [uaKey, "allow".data, "disallow".data, "crawl-delay".data, "sitemap".data, "host".data]

/-- C4 (amended): a line without a colon is ignored outright, so deleting
it from the input yields an identical parse; a line that has a colon but
an unrecognized (or empty, or comment) key adds no directive, yet still
sets the `isNoneUserAgentState` flag, so deleting it can change how
subsequent `user-agent` lines group (the counterexample above). -/
theorem c4_ignored_lines_amended :
    (∀ (st : ParseState) (l : List Char), splitFirstColon l = none → parseLine st l = st) ∧
    (∀ (st : ParseState) (pre post : List (List Char)) (l : List Char),
      splitFirstColon l = none →
      List.foldl parseLine st (pre ++ l :: post) = List.foldl parseLine st (pre ++ post)) ∧
    (∀ (st : ParseState) (l : List Char) (k v : List Char),
      splitFirstColon l = some (k, v) →
      toLowerList (trimSpace k) ∉ knownKeys →
      parseLine st l = { st with isNoneUserAgentState := true }) := by
  have hskip : ∀ (st : ParseState) (l : List Char), splitFirstColon l = none →
      parseLine st l = st := by
    intro st l h
    simp [parseLine, h]
  refine ⟨hskip, ?_, ?_⟩
  · intro st pre post l h
    induction pre generalizing st with
    | nil => simp [hskip st l h]
    | cons p pre ih => simp only [List.cons_append, List.foldl_cons]; exact ih _
  · intro st l k v hsplit hnot
    simp only [knownKeys, List.mem_cons, List.mem_singleton, not_or] at hnot
    obtain ⟨h1, h2, h3, h4, h5, h6⟩ := hnot
    simp [parseLine, hsplit, h1, h2, h3, h4, h5, h6]

theorem c4_ignored_lines_amended_witness :
    parseLine ⟨⟨⟨[], [], []⟩, [], [], []⟩, [], false⟩ "no colon here".data =
      ⟨⟨⟨[], [], []⟩, [], [], []⟩, [], false⟩ :=
  c4_ignored_lines_amended.1 ⟨⟨⟨[], [], []⟩, [], [], []⟩, [], false⟩ "no colon here".data
    (by decide)

/-! ## C6: grouping of user-agent lines and orphan directives -/

/-- C6: a `user-agent` line seen while inside a user-agent block appends
to the active list; one seen right after any other directive line starts
a fresh list; an `allow`/`disallow` directive with no active user agents
changes nothing except the flag — in particular it is attached to no
group, not even `*`; and an `allow`/`disallow` directive never touches
the rule set of an agent outside the active list. -/
theorem c6_grouping :
    (∀ (st : ParseState) (l k v : List Char),
      splitFirstColon l = some (k, v) →
      toLowerList (trimSpace k) = uaKey →
      st.isNoneUserAgentState = false →
      parseLine st l =
        { st with
          userAgents := st.userAgents ++ [normaliseUserAgent (trimSpace v)],
          isNoneUserAgentState := false }) ∧
    (∀ (st : ParseState) (l k v : List Char),
      splitFirstColon l = some (k, v) →
      toLowerList (trimSpace k) = uaKey →
      st.isNoneUserAgentState = true →
      parseLine st l =
        { st with
          userAgents := [normaliseUserAgent (trimSpace v)],
          isNoneUserAgentState := false }) ∧
    (∀ (st : ParseState) (l k v : List Char),
      splitFirstColon l = some (k, v) →
      (toLowerList (trimSpace k) = "allow".data ∨ toLowerList (trimSpace k) = "disallow".data) →
      st.userAgents = [] →
      parseLine st l = { st with isNoneUserAgentState := true }) ∧
    (∀ (st : ParseState) (l k v : List Char) (agent : List Char),
      splitFirstColon l = some (k, v) →
      (toLowerList (trimSpace k) = "allow".data ∨ toLowerList (trimSpace k) = "disallow".data) →
      agent ∉ st.userAgents →
      lookupGroup (parseLine st l).robots.groups agent =
        lookupGroup st.robots.groups agent) := by
  refine ⟨?_, ?_, ?_, ?_⟩
  · intro st l k v hsplit hkey hflag
    simp [parseLine, hsplit, hkey, hflag]
  · intro st l k v hsplit hkey hflag
    simp [parseLine, hsplit, hkey, hflag]
  · intro st l k v hsplit hkey hua
    rcases hkey with hkey | hkey
    · have hc1 : (toLowerList (trimSpace k) = uaKey) = False :=
        eq_false (by rw [hkey]; decide)
      have hc2 : (toLowerList (trimSpace k) = "allow".data) = True := eq_true hkey
      simp only [parseLine, hsplit, hc1, hc2, if_false, if_true, hua]
      simp [hc1]
    · have hc1 : (toLowerList (trimSpace k) = uaKey) = False :=
        eq_false (by rw [hkey]; decide)
      have hc2 : (toLowerList (trimSpace k) = "allow".data) = False :=
        eq_false (by rw [hkey]; decide)
      have hc3 : (toLowerList (trimSpace k) = "disallow".data) = True := eq_true hkey
      simp only [parseLine, hsplit, hc1, hc2, hc3, if_false, if_true, hua]
      simp [hc1]
  · intro st l k v agent hsplit hkey hagent
    rcases hkey with hkey | hkey
    · have hc1 : (toLowerList (trimSpace k) = uaKey) = False :=
        eq_false (by rw [hkey]; decide)
      have hc2 : (toLowerList (trimSpace k) = "allow".data) = True := eq_true hkey
      simp only [parseLine, hsplit, hc1, hc2, if_false, if_true]
      exact lookupGroup_foldl_addPathRule_ne st.userAgents _ true agent hagent _
    · have hc1 : (toLowerList (trimSpace k) = uaKey) = False :=
        eq_false (by rw [hkey]; decide)
      have hc2 : (toLowerList (trimSpace k) = "allow".data) = False :=
        eq_false (by rw [hkey]; decide)
      have hc3 : (toLowerList (trimSpace k) = "disallow".data) = True := eq_true hkey
      simp only [parseLine, hsplit, hc1, hc2, hc3, if_false, if_true]
      exact lookupGroup_foldl_addPathRule_ne st.userAgents _ false agent hagent _

theorem c6_grouping_witness :
    parseLine ⟨⟨⟨[], [], []⟩, [], [], []⟩, [['a']], false⟩ "User-agent: b".data =
      ⟨⟨⟨[], [], []⟩, [], [], []⟩, [['a'], ['b']], false⟩ :=
  c6_grouping.1 ⟨⟨⟨[], [], []⟩, [], [], []⟩, [['a']], false⟩ "User-agent: b".data
    "User-agent".data " b".data (by decide) (by decide) rfl

/-! ## C5: agent selection and fallback suppression -/

/-- The C5 scenario file: a `*` group with a rule and a crawl delay,
then an agent `b` whose only directive is an empty `Allow:`. -/
def c5Text : List Char :=
  "User-agent: *\nDisallow: /test/\nCrawl-delay: 1\nUser-agent: b\nAllow:".data

/-- C5: both lookups consult the `*` rule set only when no rule set
exists under the normalized agent key — whenever the agent has its own
group, `CrawlDelay` returns that group's delay and `IsAllowed` delegates
to that group, whatever the `*` group holds.  In the scenario, agent `b`
has a group created by the blank `Allow:`, so its crawl delay is 0 and
`/test/` is allowed for `b` despite the `*` rules. -/
theorem c5_fallback_suppression :
    (∀ (r : Robots) (ua : List Char) (g : RGroup),
      lookupGroup r.groups (normaliseUserAgent ua) = some g →
      CrawlDelay r ua = g.crawlDelay) ∧
    (∀ (up : List Char → Option ModelURL) (ta : List Char → Option (List Char))
      (r : Robots) (ua urlStr : List Char) (u : ModelURL) (g : RGroup),
      parseAndNormalizeURL up ta urlStr = some u →
      u.scheme = r.url.scheme → u.host = r.url.host →
      lookupGroup r.groups (normaliseUserAgent ua) = some g →
      IsAllowed up ta r ua urlStr = Except.ok (groupIsAllowed g u.path)) ∧
    (Parse modelURLParse modelToASCII c5Text baseURL).map
      (fun r => CrawlDelay r ['b']) = some 0 ∧
    (Parse modelURLParse modelToASCII c5Text baseURL).map
      (fun r => IsAllowed modelURLParse modelToASCII r ['b']
        "http://www.example.com/test/".data) = some (Except.ok true) ∧
    (Parse modelURLParse modelToASCII c5Text baseURL).map
      (fun r => IsAllowed modelURLParse modelToASCII r ['c']
        "http://www.example.com/test/".data) = some (Except.ok false) := by
  refine ⟨?_, ?_, by decide, by decide, by decide⟩
  · intro r ua g hl
    simp [CrawlDelay, hl]
  · intro up ta r ua urlStr u g hparse hs hh hl
    simp [IsAllowed, hparse, hs, hh, hl]

theorem c5_fallback_suppression_witness :
    CrawlDelay ⟨⟨"http".data, ['h'], []⟩, [(['a'], ⟨[], 5⟩)], [], []⟩ ['a'] = 5 :=
  c5_fallback_suppression.1 ⟨⟨"http".data, ['h'], []⟩, [(['a'], ⟨[], 5⟩)], [], []⟩
    ['a'] ⟨[], 5⟩ (by decide)

/-! ## C8: crawl-delay parsing -/

/-- C8 counterexample: the claim says the value is parsed as a
non-negative number, so `Crawl-delay: -1` should be rejected (leaving the
delay at 0).  The code's `strconv.ParseFloat` accepts the sign, and the
stored delay becomes -1 second. -/
theorem c8_crawl_delay_counterexample :
    (Parse modelURLParse modelToASCII "User-agent: a\nCrawl-delay: -1".data baseURL).map
      (fun r => CrawlDelay r ['a']) = some (-1000000000) ∧
    ¬ (0 : Int) ≤ -1000000000 := by
  exact ⟨by decide, by decide⟩

/-- C8 (amended): the crawl-delay value is parsed as a decimal
floating-point number whose sign is not checked (negative values are
stored); on parse failure the directive is silently ignored and every
agent's observable delay is unchanged (default 0); on success the value
is applied (in `time.Duration` nanoseconds) to the group of the agent;
the directive line applies this to every currently active user agent and
never surfaces an error. -/
theorem c8_crawl_delay_amended :
    (∀ (gs : List (List Char × RGroup)) (ua val k : List Char),
      parseGoFloat val = none →
      ((lookupGroup (addCrawlDelay gs ua val) k).map RGroup.crawlDelay).getD 0 =
        ((lookupGroup gs k).map RGroup.crawlDelay).getD 0) ∧
    (∀ (gs : List (List Char × RGroup)) (ua val : List Char) (q : DecFloat),
      parseGoFloat val = some q →
      lookupGroup (addCrawlDelay gs ua val) ua =
        some ⟨((lookupGroup gs ua).getD ⟨[], 0⟩).rules, decNanos q⟩) ∧
    (∀ (st : ParseState) (l k v : List Char),
      splitFirstColon l = some (k, v) →
      toLowerList (trimSpace k) = "crawl-delay".data →
      parseLine st l =
        { st with
          robots := { st.robots with
            groups := st.userAgents.foldl
              (fun gs ua => addCrawlDelay gs ua (trimSpace v)) st.robots.groups },
          isNoneUserAgentState := true }) ∧
    (Parse modelURLParse modelToASCII
        "User-agent: a\nUser-agent: b\nCrawl-delay: 2.5".data baseURL).map
      (fun r => (CrawlDelay r ['a'], CrawlDelay r ['b'])) =
        some (2500000000, 2500000000) ∧
    (Parse modelURLParse modelToASCII
        "User-agent: a\nCrawl-delay: 1\nCrawl-delay: bogus".data baseURL).map
      (fun r => CrawlDelay r ['a']) = some 1000000000 := by
  refine ⟨?_, ?_, ?_, by decide, by decide⟩
  · intro gs ua val k hnone
    simp only [addCrawlDelay, hnone]
    by_cases hk : k = ua
    · subst hk
      rw [lookupGroup_setGroup_self]
      cases hgs : lookupGroup gs k <;> simp [hgs]
    · rw [lookupGroup_setGroup_ne gs ua _ k hk]
  · intro gs ua val q hq
    simp only [addCrawlDelay, hq]
    rw [lookupGroup_setGroup_self]
  · intro st l k v hsplit hkey
    have hc1 : (toLowerList (trimSpace k) = uaKey) = False :=
      eq_false (by rw [hkey]; decide)
    have hc2 : (toLowerList (trimSpace k) = "allow".data) = False :=
      eq_false (by rw [hkey]; decide)
    have hc3 : (toLowerList (trimSpace k) = "disallow".data) = False :=
      eq_false (by rw [hkey]; decide)
    have hc4 : (toLowerList (trimSpace k) = "crawl-delay".data) = True := eq_true hkey
    simp only [parseLine, hsplit, hc1, hc2, hc3, hc4, if_false, if_true]
    simp [hc1]

theorem c8_crawl_delay_amended_witness :
    lookupGroup (addCrawlDelay [] ['a'] "2".data) ['a'] = some ⟨[], 2000000000⟩ :=
  c8_crawl_delay_amended.2.1 [] ['a'] "2".data ⟨2, 0⟩ (by decide)

/-! ## C9: the empty Disallow -/

/-- C9: an empty `Disallow:` value is not a pattern, percent-decodes to
the empty byte string and is stored as a literal-prefix rule with empty
path; the empty path is a prefix of every request path, so an agent
whose rule set consists of that rule alone is denied every same-origin
URL — the empty `Disallow` blocks everything. -/
theorem c9_empty_disallow_blocks :
    (∀ (gs : List (List Char × RGroup)) (ua : List Char),
      addPathRule gs ua [] false =
        setGroup gs ua
          ⟨((lookupGroup gs ua).getD ⟨[], 0⟩).rules ++ [⟨false, [], none⟩],
           ((lookupGroup gs ua).getD ⟨[], 0⟩).crawlDelay⟩) ∧
    (∀ (up : List Char → Option ModelURL) (ta : List Char → Option (List Char))
      (r : Robots) (ua urlStr : List Char) (u : ModelURL) (g : RGroup),
      parseAndNormalizeURL up ta urlStr = some u →
      u.scheme = r.url.scheme → u.host = r.url.host →
      lookupGroup r.groups (normaliseUserAgent ua) = some g →
      g.rules = [⟨false, [], none⟩] →
      IsAllowed up ta r ua urlStr = Except.ok false) ∧
    (Parse modelURLParse modelToASCII "User-agent: a\nDisallow:".data baseURL).map
      (fun r => (lookupGroup r.groups ['a']).map RGroup.rules) =
        some (some [⟨false, [], none⟩]) := by
  refine ⟨?_, ?_, by decide⟩
  · intro gs ua
    rfl
  · intro up ta r ua urlStr u g hparse hs hh hl hrules
    have hg : groupIsAllowed g u.path = false := by
      unfold groupIsAllowed
      rw [hrules]
      show isAllowedLoop [⟨false, [], none⟩] u.path true 0 = false
      simp [isAllowedLoop, List.isPrefixOf]
    simp [IsAllowed, hparse, hs, hh, hl, hg]

theorem c9_empty_disallow_blocks_witness :
    IsAllowed modelURLParse modelToASCII
      ⟨⟨"http".data, ['h'], []⟩, [(['a'], ⟨[⟨false, [], none⟩], 0⟩)], [], []⟩
      ['a'] "http://h/x".data = Except.ok false :=
  c9_empty_disallow_blocks.2.1 modelURLParse modelToASCII
    ⟨⟨"http".data, ['h'], []⟩, [(['a'], ⟨[⟨false, [], none⟩], 0⟩)], [], []⟩
    ['a'] "http://h/x".data ⟨"http".data, ['h'], [47, 120]⟩ ⟨[⟨false, [], none⟩], 0⟩
    (by decide) rfl rfl (by decide) rfl

/-! ## C7: URL validation in `IsAllowed` -/

/-- C7 (counterexample): the host comparison in `IsAllowed` is exact and
the ASCII normalization does not fold letter case, so a query URL whose
host differs from the base host only in letter case is rejected with the
invalid-host error rather than accepted as same-origin: against the base
`http://www.example.com/robots.txt`, the query `http://www.EXAMPLE.com/x`
errors while the identical lower-case query is answered. -/
theorem c7_url_error_counterexample :
    modelToASCII "www.EXAMPLE.com".data = some "www.EXAMPLE.com".data ∧
    (Parse modelURLParse modelToASCII "User-agent: *\nDisallow:".data baseURL).map
      (fun r => IsAllowed modelURLParse modelToASCII r ['a']
        "http://www.EXAMPLE.com/x".data) =
      some (Except.error RobotsErr.invalidHost) ∧
    (Parse modelURLParse modelToASCII "User-agent: *\nDisallow:".data baseURL).map
      (fun r => IsAllowed modelURLParse modelToASCII r ['a']
        "http://www.example.com/x".data) = some (Except.ok false) := by
  exact ⟨by decide, by decide, by decide⟩

/-- C7 (amended): `IsAllowed` fails with the malformed-URL error exactly
when the URL string does not parse or its host cannot be
ASCII-normalized; it fails with the invalid-host error exactly when the
string parses and normalizes but the scheme or the normalized host
differs — byte for byte — from the file's own base URL; whenever the
normalized scheme and host agree exactly with the base (in particular a
Unicode host whose punycode normalization equals the base host) the
query is accepted as same-origin and a boolean answer is produced; and
the normalization passes ASCII hosts through unchanged, without folding
letter case, so a host differing from the base only in case is rejected. -/
theorem c7_url_error_amended (up : List Char → Option ModelURL)
    (ta : List Char → Option (List Char)) (r : Robots) (ua s : List Char) :
    (IsAllowed up ta r ua s = Except.error RobotsErr.malformedURL ↔
      up s = none ∨ ∃ u, up s = some u ∧ ta u.host = none) ∧
    (IsAllowed up ta r ua s = Except.error RobotsErr.invalidHost ↔
      ∃ u h, up s = some u ∧ ta u.host = some h ∧
        (u.scheme ≠ r.url.scheme ∨ h ≠ r.url.host)) ∧
    (∀ (u : ModelURL) (h : List Char), up s = some u → ta u.host = some h →
      u.scheme = r.url.scheme → h = r.url.host →
      ∃ b, IsAllowed up ta r ua s = Except.ok b) ∧
    (∀ hst : List Char, (∀ c ∈ hst, c.toNat < 128) → modelToASCII hst = some hst) := by
  have hta4 : ∀ hst : List Char, (∀ c ∈ hst, c.toNat < 128) →
      modelToASCII hst = some hst := by
    intro hst hh
    unfold modelToASCII
    rw [if_pos (List.all_eq_true.mpr (fun c hc => decide_eq_true (hh c hc)))]
  have hmain :
      (IsAllowed up ta r ua s = Except.error RobotsErr.malformedURL ↔
        up s = none ∨ ∃ u, up s = some u ∧ ta u.host = none) ∧
      (IsAllowed up ta r ua s = Except.error RobotsErr.invalidHost ↔
        ∃ u h, up s = some u ∧ ta u.host = some h ∧
          (u.scheme ≠ r.url.scheme ∨ h ≠ r.url.host)) ∧
      (∀ (u : ModelURL) (h : List Char), up s = some u → ta u.host = some h →
        u.scheme = r.url.scheme → h = r.url.host →
        ∃ b, IsAllowed up ta r ua s = Except.ok b) := by
    cases hup : up s with
    | none =>
      refine ⟨?_, ?_, ?_⟩
      · simp [IsAllowed, parseAndNormalizeURL, hup]
      · simp [IsAllowed, parseAndNormalizeURL, hup]
      · intro u h hu
        simp at hu
    | some u =>
      cases hta : ta u.host with
      | none =>
        refine ⟨?_, ?_, ?_⟩
        · simp [IsAllowed, parseAndNormalizeURL, hup, hta]
        · simp [IsAllowed, parseAndNormalizeURL, hup, hta]
        · intro u2 h hu2 hta2
          cases hu2
          rw [hta] at hta2
          cases hta2
      | some h =>
        by_cases hcond : u.scheme ≠ r.url.scheme ∨ h ≠ r.url.host
        · refine ⟨?_, ?_, ?_⟩
          · simp only [IsAllowed, parseAndNormalizeURL, hup, hta]
            rw [if_pos hcond]
            simp [hta]
          · simp only [IsAllowed, parseAndNormalizeURL, hup, hta]
            rw [if_pos hcond]
            exact ⟨fun _ => ⟨u, h, rfl, hta, hcond⟩, fun _ => rfl⟩
          · intro u2 h2 hu2 hta2 hs2 hh2
            cases hu2
            rw [hta] at hta2
            cases hta2
            exact absurd hcond (by simp [hs2, hh2])
        · refine ⟨?_, ?_, ?_⟩
          · simp only [IsAllowed, parseAndNormalizeURL, hup, hta]
            rw [if_neg hcond]
            constructor
            · intro hh
              cases hl : lookupGroup r.groups (normaliseUserAgent ua) with
              | some g => rw [hl] at hh; exact absurd hh (by simp)
              | none =>
                rw [hl] at hh
                cases hl2 : lookupGroup r.groups ['*'] with
                | some g => rw [hl2] at hh; exact absurd hh (by simp)
                | none => rw [hl2] at hh; exact absurd hh (by simp)
            · intro hh
              rcases hh with hh | ⟨u2, hu2, hta2⟩
              · cases hh
              · cases hu2
                rw [hta] at hta2
                cases hta2
          · simp only [IsAllowed, parseAndNormalizeURL, hup, hta]
            rw [if_neg hcond]
            constructor
            · intro hh
              cases hl : lookupGroup r.groups (normaliseUserAgent ua) with
              | some g => rw [hl] at hh; exact absurd hh (by simp)
              | none =>
                rw [hl] at hh
                cases hl2 : lookupGroup r.groups ['*'] with
                | some g => rw [hl2] at hh; exact absurd hh (by simp)
                | none => rw [hl2] at hh; exact absurd hh (by simp)
            · intro hh
              rcases hh with ⟨u2, h2, hu2, hta2, hbad⟩
              cases hu2
              rw [hta] at hta2
              cases hta2
              exact absurd hbad hcond
          · intro u2 h2 hu2 hta2 hs2 hh2
            simp only [IsAllowed, parseAndNormalizeURL, hup, hta]
            rw [if_neg hcond]
            cases hl : lookupGroup r.groups (normaliseUserAgent ua) with
            | some g => exact ⟨groupIsAllowed g ({ u with host := h } : ModelURL).path, rfl⟩
            | none =>
              cases hl2 : lookupGroup r.groups ['*'] with
              | some g => exact ⟨groupIsAllowed g ({ u with host := h } : ModelURL).path, rfl⟩
              | none => exact ⟨true, rfl⟩
  exact ⟨hmain.1, hmain.2.1, hmain.2.2, hta4⟩

theorem c7_url_error_amended_witness :
    ∃ b, IsAllowed modelURLParse modelToASCII
      ⟨⟨"http".data, "h".data, []⟩, [], [], []⟩ ['a'] "http://h/x".data = Except.ok b :=
  (c7_url_error_amended modelURLParse modelToASCII
      ⟨⟨"http".data, "h".data, []⟩, [], [], []⟩ ['a'] "http://h/x".data).2.2.1
    ⟨"http".data, "h".data, [47, 120]⟩ "h".data (by decide) (by decide) rfl rfl

/-! ## An item-level view of the strings `compilePattern` manipulates

Every byte string that flows through `compilePattern` is a concatenation
of small units — escape pairs `\c`, bare non-special ASCII bytes,
whole multibyte UTF-8 rune encodings, wildcard groups `(?:.*)` — with an
optional final `$` anchor byte.  The string transformations of
`compilePattern` act on whole units, which is what makes the compiler
correct; the `Item` type makes that structure explicit. -/

/-- One unit of a regex source string. -/
inductive Item where
  | esc : Nat → Item
  | bare : Nat → Item
  | mb : Nat → List Nat → Item
  | wild : Item
deriving DecidableEq, Repr

/-- The bytes of one item. -/
def renderItem : Item → List Nat
  | Item.esc b => [92, b]
  | Item.bare b => [b]
  | Item.mb b t => b :: t
  | Item.wild => wildBytes

/-- The bytes of an item list. -/
def renderAll : List Item → List Nat
  | [] => []
  | i :: rest => renderItem i ++ renderAll rest

/-- Well-formedness of one item: escapes hold special bytes, bare items
hold non-special ASCII bytes, multibyte items hold exactly the rune
encodings Go's decoder accepts. -/
def itemOK : Item → Bool
  | Item.esc b => special b
  | Item.bare b => decide (b < 128) && !special b
  | Item.mb b t =>
    match t with
    | [t1] => decide (194 ≤ b ∧ b ≤ 223) && contByte t1
    | [t1, t2] => decide (224 ≤ b ∧ b ≤ 239) && accept3 b t1 && contByte t2
    | [t1, t2, t3] =>
      decide (240 ≤ b ∧ b ≤ 244) && accept4 b t1 && contByte t2 && contByte t3
    | _ => false
  | Item.wild => true

/-- Well-formedness of an item list. -/
def itemsOK (l : List Item) : Bool :=
  l.all itemOK

/-- The token an item compiles to. -/
def itemTok : Item → RTok
  | Item.esc b => RTok.lit b
  | Item.bare b => RTok.lit b
  | Item.mb b t =>
    match t with
    | [t1] => RTok.lit (rune2 b t1)
    | [t1, t2] => RTok.lit (rune3 b t1 t2)
    | [t1, t2, t3] => RTok.lit (rune4 b t1 t2 t3)
    | _ => RTok.lit 0
  | Item.wild => RTok.wild

/-- One unit cut from a byte string as `regexp.QuoteMeta` sees it: a
special ASCII byte becomes an escape pair, another ASCII byte stays
bare, and a valid multibyte rune stays whole; `none` on invalid UTF-8. -/
def qItemsStep (b : Nat) (rest : List Nat) : Option (Item × List Nat) :=
  if b < 128 then
    some (if special b then Item.esc b else Item.bare b, rest)
  else if 194 ≤ b ∧ b ≤ 223 then
    if contByte rest.headI then some (Item.mb b [rest.headI], rest.tail) else none
  else if 224 ≤ b ∧ b ≤ 239 then
    if accept3 b rest.headI && contByte rest.tail.headI then
      some (Item.mb b [rest.headI, rest.tail.headI], rest.tail.tail)
    else none
  else if 240 ≤ b ∧ b ≤ 244 then
    if accept4 b rest.headI && contByte rest.tail.headI && contByte rest.tail.tail.headI then
      some (Item.mb b [rest.headI, rest.tail.headI, rest.tail.tail.headI],
        rest.tail.tail.tail)
    else none
  else none

/-- Fuelled worker for `qItems`; one unit of fuel per byte consumed. -/
def qItemsF : Nat → List Nat → Option (List Item)
  | _, [] => some []
  | 0, _ => none
  | f + 1, b :: rest =>
    (qItemsStep b rest).bind fun p => (fun is => p.1 :: is) <$> qItemsF f p.2

/-- Cut a byte string into the items `regexp.QuoteMeta` produces from
it.  `(qItems bs).isSome` is exactly "`bs` is valid UTF-8". -/
def qItems (bs : List Nat) : Option (List Item) :=
  qItemsF bs.length bs

/-! ## Facts about the item decomposition -/

theorem special_high (b : Nat) (h : 128 ≤ b) : special b = false := by
  simp only [special, Bool.or_eq_false_iff, decide_eq_false_iff_not]
  omega

theorem accept3_range (b b1 : Nat) (h : accept3 b b1 = true) : 128 ≤ b1 ∧ b1 ≤ 191 := by
  unfold accept3 at h
  split at h
  · simp only [Bool.and_eq_true, decide_eq_true_eq] at h
    omega
  · split at h
    · simp only [Bool.and_eq_true, decide_eq_true_eq] at h
      omega
    · simp only [contByte, Bool.and_eq_true, decide_eq_true_eq] at h
      omega

theorem accept4_range (b b1 : Nat) (h : accept4 b b1 = true) : 128 ≤ b1 ∧ b1 ≤ 191 := by
  unfold accept4 at h
  split at h
  · simp only [Bool.and_eq_true, decide_eq_true_eq] at h
    omega
  · split at h
    · simp only [Bool.and_eq_true, decide_eq_true_eq] at h
      omega
    · simp only [contByte, Bool.and_eq_true, decide_eq_true_eq] at h
      omega

theorem contByte_range (b : Nat) (h : contByte b = true) : 128 ≤ b ∧ b ≤ 191 := by
  simp only [contByte, Bool.and_eq_true, decide_eq_true_eq] at h
  exact h

theorem quoteMeta_cons_nonspecial (b : Nat) (rest : List Nat) (h : special b = false) :
    quoteMeta (b :: rest) = b :: quoteMeta rest := by
  simp [quoteMeta, h]

theorem qItemsStep_length (b : Nat) (rest : List Nat) (p : Item × List Nat)
    (h : qItemsStep b rest = some p) : p.2.length ≤ rest.length := by
  unfold qItemsStep at h
  by_cases h1 : b < 128
  · rw [if_pos h1] at h
    cases h
    exact le_refl _
  · rw [if_neg h1] at h
    by_cases h2 : 194 ≤ b ∧ b ≤ 223
    · rw [if_pos h2] at h
      by_cases hc : contByte rest.headI
      · rw [if_pos hc] at h
        cases h
        simp only [List.length_tail]
        omega
      · rw [if_neg hc] at h
        cases h
    · rw [if_neg h2] at h
      by_cases h3 : 224 ≤ b ∧ b ≤ 239
      · rw [if_pos h3] at h
        by_cases hc : accept3 b rest.headI && contByte rest.tail.headI
        · rw [if_pos hc] at h
          cases h
          simp only [List.length_tail]
          omega
        · rw [if_neg hc] at h
          cases h
      · rw [if_neg h3] at h
        by_cases h4 : 240 ≤ b ∧ b ≤ 244
        · rw [if_pos h4] at h
          by_cases hc : accept4 b rest.headI && contByte rest.tail.headI &&
              contByte rest.tail.tail.headI
          · rw [if_pos hc] at h
            cases h
            simp only [List.length_tail]
            omega
          · rw [if_neg hc] at h
            cases h
        · rw [if_neg h4] at h
          cases h

theorem qItemsF_fuel : ∀ (f g : Nat) (bs : List Nat), bs.length ≤ f → bs.length ≤ g →
    qItemsF f bs = qItemsF g bs := by
  intro f
  induction f with
  | zero =>
    intro g bs hf _
    have : bs = [] := List.length_eq_zero.mp (Nat.le_zero.mp hf)
    subst this
    cases g <;> rfl
  | succ f ih =>
    intro g bs hf hg
    cases bs with
    | nil => cases g <;> rfl
    | cons b rest =>
      cases g with
      | zero => simp at hg
      | succ g =>
        show (qItemsStep b rest).bind _ = (qItemsStep b rest).bind _
        cases hstep : qItemsStep b rest with
        | none => rfl
        | some p =>
          simp only [Option.some_bind]
          have h1 : p.2.length ≤ f := by
            have := qItemsStep_length b rest p hstep
            simp only [List.length_cons] at hf
            omega
          have h2 : p.2.length ≤ g := by
            have := qItemsStep_length b rest p hstep
            simp only [List.length_cons] at hg
            omega
          rw [ih g p.2 h1 h2]

theorem qItems_nil : qItems [] = some [] := rfl

theorem qItems_cons (b : Nat) (rest : List Nat) :
    qItems (b :: rest) =
      (qItemsStep b rest).bind fun p => (fun is => p.1 :: is) <$> qItems p.2 := by
  show (qItemsStep b rest).bind
      (fun p => (fun is => p.1 :: is) <$> qItemsF rest.length p.2) = _
  cases hstep : qItemsStep b rest with
  | none => rfl
  | some p =>
    simp only [Option.some_bind]
    rw [show qItems p.2 = qItemsF p.2.length p.2 from rfl,
      qItemsF_fuel rest.length p.2.length p.2 (qItemsStep_length b rest p hstep) (le_refl _)]

theorem contByte_ne_nil (rest : List Nat) (h : contByte rest.headI = true) : rest ≠ [] := by
  intro he
  subst he
  simp [List.headI, contByte] at h

theorem qItemsStep_spec (b : Nat) (rest : List Nat) (i : Item) (rest2 : List Nat)
    (h : qItemsStep b rest = some (i, rest2)) :
    quoteMeta (b :: rest) = renderItem i ++ quoteMeta rest2 ∧ itemOK i = true := by
  unfold qItemsStep at h
  by_cases h1 : b < 128
  · rw [if_pos h1] at h
    cases h
    by_cases hs : special b
    · exact ⟨by simp [quoteMeta, hs, renderItem, if_pos hs], by simp [itemOK, if_pos hs, hs]⟩
    · refine ⟨by simp [quoteMeta, hs, renderItem, if_neg hs], ?_⟩
      simp only [if_neg hs, itemOK, Bool.and_eq_true, decide_eq_true_eq, Bool.not_eq_true']
      exact ⟨h1, by simp [hs]⟩
  · rw [if_neg h1] at h
    by_cases h2 : 194 ≤ b ∧ b ≤ 223
    · rw [if_pos h2] at h
      by_cases hc : contByte rest.headI
      · rw [if_pos hc] at h
        cases h
        obtain ⟨b1, rest1, hr⟩ : ∃ b1 rest1, rest = b1 :: rest1 := by
          cases rest with
          | nil => exact absurd rfl (contByte_ne_nil [] hc)
          | cons x xs => exact ⟨x, xs, rfl⟩
        subst hr
        simp only [List.headI, List.tail_cons] at hc ⊢
        have hb0 : special b = false := special_high b (by omega)
        have hb1 : special b1 = false := special_high b1 (contByte_range b1 hc).1
        refine ⟨?_, by simp [itemOK, h2, hc]⟩
        rw [quoteMeta_cons_nonspecial b _ hb0, quoteMeta_cons_nonspecial b1 _ hb1]
        rfl
      · rw [if_neg hc] at h
        cases h
    · rw [if_neg h2] at h
      by_cases h3 : 224 ≤ b ∧ b ≤ 239
      · rw [if_pos h3] at h
        by_cases hc : accept3 b rest.headI && contByte rest.tail.headI
        · rw [if_pos hc] at h
          cases h
          simp only [Bool.and_eq_true] at hc
          obtain ⟨b1, rest1, hr⟩ : ∃ b1 rest1, rest = b1 :: rest1 := by
            cases rest with
            | nil =>
              exfalso
              exact contByte_ne_nil [] (by simpa using hc.2) rfl
            | cons x xs => exact ⟨x, xs, rfl⟩
          subst hr
          obtain ⟨b2, rest2x, hr⟩ : ∃ b2 rest2x, rest1 = b2 :: rest2x := by
            cases rest1 with
            | nil =>
              exfalso
              exact contByte_ne_nil [] (by simpa using hc.2) rfl
            | cons x xs => exact ⟨x, xs, rfl⟩
          subst hr
          simp only [List.headI, List.tail_cons] at hc ⊢
          have hb0 : special b = false := special_high b (by omega)
          have hb1 : special b1 = false := special_high b1 (accept3_range b b1 hc.1).1
          have hb2 : special b2 = false := special_high b2 (contByte_range b2 hc.2).1
          refine ⟨?_, by simp [itemOK, h3, hc.1, hc.2]⟩
          rw [quoteMeta_cons_nonspecial b _ hb0, quoteMeta_cons_nonspecial b1 _ hb1,
            quoteMeta_cons_nonspecial b2 _ hb2]
          rfl
        · rw [if_neg hc] at h
          cases h
      · rw [if_neg h3] at h
        by_cases h4 : 240 ≤ b ∧ b ≤ 244
        · rw [if_pos h4] at h
          by_cases hc : accept4 b rest.headI && contByte rest.tail.headI &&
              contByte rest.tail.tail.headI
          · rw [if_pos hc] at h
            cases h
            simp only [Bool.and_eq_true] at hc
            obtain ⟨b1, rest1, hr⟩ : ∃ b1 rest1, rest = b1 :: rest1 := by
              cases rest with
              | nil =>
                exfalso
                exact contByte_ne_nil [] (by simpa using hc.2) rfl
              | cons x xs => exact ⟨x, xs, rfl⟩
            subst hr
            obtain ⟨b2, rest2x, hr⟩ : ∃ b2 rest2x, rest1 = b2 :: rest2x := by
              cases rest1 with
              | nil =>
                exfalso
                exact contByte_ne_nil [] (by simpa using hc.2) rfl
              | cons x xs => exact ⟨x, xs, rfl⟩
            subst hr
            obtain ⟨b3, rest3, hr⟩ : ∃ b3 rest3, rest2x = b3 :: rest3 := by
              cases rest2x with
              | nil =>
                exfalso
                exact contByte_ne_nil [] (by simpa using hc.2) rfl
              | cons x xs => exact ⟨x, xs, rfl⟩
            subst hr
            simp only [List.headI, List.tail_cons] at hc ⊢
            have hb0 : special b = false := special_high b (by omega)
            have hb1 : special b1 = false := special_high b1 (accept4_range b b1 hc.1.1).1
            have hb2 : special b2 = false := special_high b2 (contByte_range b2 hc.1.2).1
            have hb3 : special b3 = false := special_high b3 (contByte_range b3 hc.2).1
            refine ⟨?_, by simp [itemOK, h4, hc.1.1, hc.1.2, hc.2]⟩
            rw [quoteMeta_cons_nonspecial b _ hb0, quoteMeta_cons_nonspecial b1 _ hb1,
              quoteMeta_cons_nonspecial b2 _ hb2, quoteMeta_cons_nonspecial b3 _ hb3]
            rfl
          · rw [if_neg hc] at h
            cases h
        · rw [if_neg h4] at h
          cases h

theorem qItems_spec_aux : ∀ (n : Nat) (bs : List Nat), bs.length ≤ n →
    ∀ items, qItems bs = some items →
      quoteMeta bs = renderAll items ∧ itemsOK items = true := by
  intro n
  induction n with
  | zero =>
    intro bs hlen items h
    have : bs = [] := List.length_eq_zero.mp (Nat.le_zero.mp hlen)
    subst this
    rw [qItems_nil] at h
    cases h
    exact ⟨rfl, rfl⟩
  | succ n ih =>
    intro bs hlen items h
    cases bs with
    | nil =>
      rw [qItems_nil] at h
      cases h
      exact ⟨rfl, rfl⟩
    | cons b rest =>
      rw [qItems_cons] at h
      cases hstep : qItemsStep b rest with
      | none => rw [hstep] at h; cases h
      | some p =>
        rw [hstep] at h
        simp only [Option.some_bind] at h
        cases hq2 : qItems p.2 with
        | none =>
          rw [hq2] at h
          rw [show ((fun is => p.1 :: is) <$> (none : Option (List Item))) = none from rfl] at h
          cases h
        | some is =>
          rw [hq2] at h
          simp only [Option.map_eq_map, Option.map_some'] at h
          cases h
          obtain ⟨i, rest2⟩ := p
          have hlen2 : rest2.length ≤ n := by
            have := qItemsStep_length b rest (i, rest2) hstep
            simp only [List.length_cons] at hlen
            simp only at this
            omega
          rcases ih rest2 hlen2 is hq2 with ⟨hq, hok⟩
          rcases qItemsStep_spec b rest i rest2 hstep with ⟨hq1, hok1⟩
          constructor
          · rw [hq1, hq]
            rfl
          · simp only [itemsOK, List.all_cons, Bool.and_eq_true]
            exact ⟨hok1, hok⟩

/-- `regexp.QuoteMeta` of a valid UTF-8 byte string renders its item
decomposition, and the items are well formed. -/
theorem qItems_spec (bs : List Nat) (items : List Item) (h : qItems bs = some items) :
    quoteMeta bs = renderAll items ∧ itemsOK items = true :=
  qItems_spec_aux bs.length bs (le_refl _) items h

/-! ## The wildcard stage of `compilePattern` -/

theorem renderAll_append (a b : List Item) :
    renderAll (a ++ b) = renderAll a ++ renderAll b := by
  induction a with
  | nil => rfl
  | cons i rest ih => simp [renderAll, ih]

theorem itemsOK_cons_iff (i : Item) (rest : List Item) :
    itemsOK (i :: rest) = true ↔ itemOK i = true ∧ itemsOK rest = true := by
  simp [itemsOK]

theorem mb_lead_high (b : Nat) (t : List Nat) (h : itemOK (Item.mb b t) = true) :
    194 ≤ b := by
  simp only [itemOK] at h
  split at h
  · simp only [Bool.and_eq_true, decide_eq_true_eq] at h
    omega
  · simp only [Bool.and_eq_true, decide_eq_true_eq] at h
    omega
  · simp only [Bool.and_eq_true, decide_eq_true_eq] at h
    omega
  · cases h

theorem mb_bytes_high (b : Nat) (t : List Nat) (h : itemOK (Item.mb b t) = true) :
    ∀ c ∈ renderItem (Item.mb b t), 128 ≤ c := by
  simp only [itemOK] at h
  split at h
  · rename_i t1
    simp only [Bool.and_eq_true, decide_eq_true_eq] at h
    have := contByte_range t1 h.2
    intro c hc
    simp only [renderItem, List.mem_cons, List.mem_singleton, List.not_mem_nil] at hc
    rcases hc with hc | hc | hc
    · omega
    · omega
    · cases hc
  · rename_i t1 t2
    simp only [Bool.and_eq_true, decide_eq_true_eq] at h
    have h1 := accept3_range b t1 h.1.2
    have h2 := contByte_range t2 h.2
    intro c hc
    simp only [renderItem, List.mem_cons, List.mem_singleton, List.not_mem_nil] at hc
    rcases hc with hc | hc | hc | hc
    · omega
    · omega
    · omega
    · cases hc
  · rename_i t1 t2 t3
    simp only [Bool.and_eq_true, decide_eq_true_eq] at h
    have h1 := accept4_range b t1 h.1.1.2
    have h2 := contByte_range t2 h.1.2
    have h3 := contByte_range t3 h.2
    intro c hc
    simp only [renderItem, List.mem_cons, List.mem_singleton, List.not_mem_nil] at hc
    rcases hc with hc | hc | hc | hc | hc
    · omega
    · omega
    · omega
    · omega
    · cases hc
  · cases h

theorem replaceAll_append_ne_head {α : Type} [DecidableEq α] (h0 : α) (pat rep xs s : List α)
    (hxs : ∀ c ∈ xs, c ≠ h0) :
    replaceAll (h0 :: pat) rep (xs ++ s) = xs ++ replaceAll (h0 :: pat) rep s := by
  induction xs with
  | nil => rfl
  | cons c xs ih =>
    have hc : c ≠ h0 := hxs c (by simp)
    rw [List.cons_append, replaceAll_cons_neg _ _ _ _ (by
      intro hcon
      rcases hcon with ⟨-, hpre⟩
      simp only [List.isPrefixOf, Bool.and_eq_true, beq_iff_eq] at hpre
      exact hc hpre.1.symm)]
    rw [ih (fun y hy => hxs y (by simp [hy]))]
    rfl

theorem replaceAll_of_no_head {α : Type} [DecidableEq α] (h0 : α) (pat rep s : List α)
    (hs : ∀ c ∈ s, c ≠ h0) :
    replaceAll (h0 :: pat) rep s = s := by
  have h2 := replaceAll_append_ne_head h0 pat rep s [] hs
  rw [List.append_nil, replaceAll_nil, List.append_nil] at h2
  exact h2

theorem renderAll_ne_cons_42 (items : List Item) (hOK : itemsOK items = true) (t : List Nat) :
    renderAll items ≠ 42 :: t := by
  intro h
  cases items with
  | nil => cases h
  | cons i rest =>
    have hi : itemOK i = true := ((itemsOK_cons_iff i rest).mp hOK).1
    cases i with
    | esc b =>
      simp only [renderAll, renderItem, List.cons_append, List.cons.injEq] at h
      omega
    | bare b =>
      simp only [renderAll, renderItem, List.cons_append, List.nil_append,
        List.cons.injEq] at h
      simp only [itemOK, Bool.and_eq_true, decide_eq_true_eq, Bool.not_eq_true'] at hi
      rw [h.1] at hi
      simp [special] at hi
    | mb b tt =>
      have := mb_lead_high b tt hi
      simp only [renderAll, renderItem, List.cons_append, List.cons.injEq] at h
      omega
    | wild =>
      simp only [renderAll, renderItem, wildBytes, List.cons_append, List.cons.injEq] at h
      omega

/-- The wildcard substitution at the item level: an escaped `*` becomes
the `(?:.*)` group, everything else is untouched. -/
def wildify : Item → Item
  | Item.esc b => if b = 42 then Item.wild else Item.esc b
  | i => i

theorem wildify_OK (i : Item) (h : itemOK i = true) : itemOK (wildify i) = true := by
  cases i with
  | esc b =>
    by_cases hb : b = 42
    · simp [wildify, hb, itemOK]
    · simpa [wildify, hb, itemOK] using h
  | bare b => exact h
  | mb b t => exact h
  | wild => exact h

theorem itemsOK_map_wildify (items : List Item) (h : itemsOK items = true) :
    itemsOK (items.map wildify) = true := by
  induction items with
  | nil => rfl
  | cons i rest ih =>
    rcases (itemsOK_cons_iff i rest).mp h with ⟨hi, hrest⟩
    exact (itemsOK_cons_iff _ _).mpr ⟨wildify_OK i hi, ih hrest⟩

theorem stageB_wild (items : List Item) (hOK : itemsOK items = true) :
    replaceAll [92, 42] wildBytes (renderAll items) = renderAll (items.map wildify) := by
  induction items with
  | nil => rfl
  | cons i rest ih =>
    rcases (itemsOK_cons_iff i rest).mp hOK with ⟨hi, hrest⟩
    cases i with
    | esc b =>
      by_cases hb : b = 42
      · subst hb
        show replaceAll [92, 42] wildBytes (92 :: 42 :: renderAll rest) = _
        rw [replaceAll_cons_pos _ _ _ _ (by simp) (by simp [List.isPrefixOf])]
        show wildBytes ++ replaceAll [92, 42] wildBytes (renderAll rest) = _
        rw [ih hrest]
        rfl
      · have hA : ¬ (([92, 42] : List Nat) ≠ [] ∧
            ([92, 42].isPrefixOf (92 :: b :: renderAll rest)) = true) := by
          intro hcon
          rcases hcon with ⟨-, hpre⟩
          simp only [List.isPrefixOf, Bool.and_eq_true, beq_iff_eq] at hpre
          exact hb hpre.2.1.symm
        have hB : ¬ (([92, 42] : List Nat) ≠ [] ∧
            ([92, 42].isPrefixOf (b :: renderAll rest)) = true) := by
          intro hcon
          rcases hcon with ⟨-, hpre⟩
          simp only [List.isPrefixOf, Bool.and_eq_true, beq_iff_eq] at hpre
          rcases hpre with ⟨-, hpre2⟩
          rcases List.isPrefixOf_iff_prefix.mp hpre2 with ⟨t, ht⟩
          exact renderAll_ne_cons_42 rest hrest t (by simpa using ht.symm)
        show replaceAll [92, 42] wildBytes (92 :: b :: renderAll rest) = _
        rw [replaceAll_cons_neg _ _ _ _ hA, replaceAll_cons_neg _ _ _ _ hB, ih hrest]
        simp [renderAll, wildify, hb, renderItem]
    | bare b =>
      have hb92 : b ≠ 92 := by
        simp only [itemOK, Bool.and_eq_true, decide_eq_true_eq, Bool.not_eq_true'] at hi
        intro he
        rw [he] at hi
        simp [special] at hi
      show replaceAll [92, 42] wildBytes (b :: renderAll rest) = _
      rw [replaceAll_cons_neg _ _ _ _ (by
        intro hcon
        rcases hcon with ⟨-, hpre⟩
        simp only [List.isPrefixOf, Bool.and_eq_true, beq_iff_eq] at hpre
        exact hb92 hpre.1.symm)]
      rw [ih hrest]
      rfl
    | mb b t =>
      show replaceAll [92, 42] wildBytes (renderItem (Item.mb b t) ++ renderAll rest) = _
      rw [replaceAll_append_ne_head 92 [42] wildBytes _ _
        (fun c hc => by have := mb_bytes_high b t hi c hc; omega)]
      rw [ih hrest]
      rfl
    | wild =>
      show replaceAll [92, 42] wildBytes (wildBytes ++ renderAll rest) = _
      rw [replaceAll_append_ne_head 92 [42] wildBytes _ _ (by decide)]
      rw [ih hrest]
      rfl

/-! ## The suffix stages of `compilePattern` -/

/-- The trailing-`\$`-to-anchor stage at the item level. -/
def anchorStep (l : List Item) : List Item × Bool :=
  if l.getLast? = some (Item.esc 36) then (l.dropLast, true) else (l, false)

/-- The trailing-`%24`-to-`\$` stage at the item level. -/
def pct24Step (p : List Item × Bool) : List Item × Bool :=
  if p.2 then p
  else if p.1.reverse.take 3 = [Item.bare 52, Item.bare 50, Item.bare 37] then
    ((p.1.reverse.drop 3).reverse ++ [Item.esc 36], false)
  else p

/-- The trailing-`%2524`-to-`%24` stage at the item level. -/
def pct2524Step (p : List Item × Bool) : List Item × Bool :=
  if p.2 then p
  else if p.1.reverse.take 5 =
      [Item.bare 52, Item.bare 50, Item.bare 53, Item.bare 50, Item.bare 37] then
    ((p.1.reverse.drop 5).reverse ++ [Item.bare 37, Item.bare 50, Item.bare 52], false)
  else p

theorem renderItem_ne_nil (i : Item) : renderItem i ≠ [] := by
  cases i <;> simp [renderItem, wildBytes]

theorem replaceSuffix_append {α : Type} [DecidableEq α] (xs sfx rep : List α) :
    replaceSuffix (xs ++ sfx) sfx rep = xs ++ rep := by
  unfold replaceSuffix
  rw [if_pos (List.isSuffixOf_iff_suffix.mpr ⟨xs, rfl⟩)]
  congr 1
  rw [List.length_append, Nat.add_sub_cancel]
  exact List.take_left xs sfx

theorem getLast_append_ne {α : Type} (a b : List α) (h : b ≠ []) :
    (a ++ b).getLast? = b.getLast? := by
  cases hb : b.reverse with
  | nil =>
    exact absurd (by simpa using congrArg List.reverse hb) h
  | cons x xs =>
    rw [List.getLast?_eq_head?_reverse, List.getLast?_eq_head?_reverse,
      List.reverse_append, hb]
    rfl

theorem renderAll_split_last (items : List Item) (hOK : itemsOK items = true) (c : Nat)
    (h : (renderAll items).getLast? = some c) :
    ∃ init i, items = init ++ [i] ∧ (renderItem i).getLast? = some c ∧
      itemOK i = true ∧ itemsOK init = true := by
  induction items using List.reverseRecOn with
  | nil => cases h
  | append_singleton init i _ =>
    refine ⟨init, i, rfl, ?_, ?_, ?_⟩
    · have hne : renderAll [i] ≠ [] := by
        simp only [renderAll, List.append_nil]
        exact renderItem_ne_nil i
      rw [renderAll_append, getLast_append_ne (renderAll init) (renderAll [i]) hne] at h
      rw [← h]
      simp [renderAll]
    · have := hOK
      simp only [itemsOK, List.all_append, List.all_cons, List.all_nil,
        Bool.and_eq_true] at this
      exact this.2.1
    · have := hOK
      simp only [itemsOK, List.all_append, List.all_cons, List.all_nil,
        Bool.and_eq_true] at this
      exact this.1

theorem item_last_bare (i : Item) (hOK : itemOK i = true) (c : Nat) (hc1 : c < 128)
    (hc2 : special c = false) (h : (renderItem i).getLast? = some c) : i = Item.bare c := by
  cases i with
  | esc b =>
    simp only [renderItem, List.getLast?] at h
    have hb : b = c := by
      simpa using h
    subst hb
    simp only [itemOK] at hOK
    rw [hOK] at hc2
    cases hc2
  | bare b =>
    have hb : b = c := by
      simpa [renderItem, List.getLast?] using h
    rw [hb]
  | mb b t =>
    have hmem : c ∈ renderItem (Item.mb b t) := List.mem_of_mem_getLast? h
    have := mb_bytes_high b t hOK c hmem
    omega
  | wild =>
    have hb : (41 : Nat) = c := by
      simpa [renderItem, wildBytes, List.getLast?] using h
    rw [← hb] at hc2
    cases hc2

theorem item_last_esc36 (i : Item) (hOK : itemOK i = true)
    (h : (renderItem i).getLast? = some 36) : i = Item.esc 36 := by
  cases i with
  | esc b =>
    have hb : b = 36 := by
      simpa [renderItem, List.getLast?] using h
    rw [hb]
  | bare b =>
    have hb : b = 36 := by
      simpa [renderItem, List.getLast?] using h
    subst hb
    simp only [itemOK, Bool.and_eq_true, decide_eq_true_eq, Bool.not_eq_true'] at hOK
    rcases hOK with ⟨-, hs⟩
    simp [special] at hs
  | mb b t =>
    have hmem : (36 : Nat) ∈ renderItem (Item.mb b t) := List.mem_of_mem_getLast? h
    have := mb_bytes_high b t hOK 36 hmem
    omega
  | wild =>
    simp [renderItem, wildBytes, List.getLast?] at h

theorem reverse_take_of_append {α : Type} (init l : List α) (n : Nat) (hn : l.length = n) :
    (init ++ l).reverse.take n = l.reverse := by
  rw [List.reverse_append]
  have h : n = l.reverse.length := by rw [List.length_reverse, hn]
  rw [h, List.take_left]

theorem reverse_drop_of_append {α : Type} (init l : List α) (n : Nat) (hn : l.length = n) :
    (init ++ l).reverse.drop n = init.reverse := by
  rw [List.reverse_append]
  have h : n = l.reverse.length := by rw [List.length_reverse, hn]
  rw [h, List.drop_left]

theorem itemsOK_append_iff (a b : List Item) :
    itemsOK (a ++ b) = true ↔ itemsOK a = true ∧ itemsOK b = true := by
  simp [itemsOK]


/-- Peeling a suffix of plain (non-special ASCII) bytes off a rendered
well-formed item list yields a suffix of `bare` items. -/
theorem renderAll_split_bare_suffix (bytes : List Nat)
    (hb : ∀ c ∈ bytes, c < 128 ∧ special c = false) :
    ∀ (items : List Item), itemsOK items = true → ∀ t, renderAll items = t ++ bytes →
      ∃ init, items = init ++ bytes.map Item.bare ∧ renderAll init = t ∧
        itemsOK init = true := by
  induction bytes using List.reverseRecOn with
  | nil =>
    intro items hOK t h
    exact ⟨items, by simp, by simpa using h, hOK⟩
  | append_singleton bs c ih =>
    intro items hOK t h
    have hlast : (renderAll items).getLast? = some c := by
      rw [h, ← List.append_assoc, List.getLast?_concat]
    obtain ⟨init1, i, hspl, hli, hOKi, hOK1⟩ := renderAll_split_last items hOK c hlast
    have hie : i = Item.bare c :=
      item_last_bare i hOKi c (hb c (by simp)).1 (hb c (by simp)).2 hli
    rw [hie] at hspl
    have hr1 : renderAll init1 = t ++ bs := by
      have h2 : renderAll init1 ++ [c] = (t ++ bs) ++ [c] := by
        have h3 : renderAll items = renderAll init1 ++ [c] := by
          rw [hspl, renderAll_append]
          rfl
        rw [← h3, h, List.append_assoc]
      have := congrArg List.dropLast h2
      rwa [List.dropLast_concat, List.dropLast_concat] at this
    obtain ⟨init, hinit, hrinit, hOKinit⟩ :=
      ih (fun c hc => hb c (by simp [hc])) init1 hOK1 t hr1
    refine ⟨init, ?_, hrinit, hOKinit⟩
    rw [hspl, hinit, List.map_append, List.append_assoc]
    rfl


/-- Stage C: the trailing-`\$` replacement on rendered well-formed items is
the item-level `anchorStep`. -/
theorem stageC_anchor (items : List Item) (hOK : itemsOK items = true) :
    replaceSuffix (renderAll items) [92, 36] [36] =
      renderAll (anchorStep items).1 ++ cond (anchorStep items).2 [36] [] ∧
    itemsOK (anchorStep items).1 = true := by
  by_cases hl : items.getLast? = some (Item.esc 36)
  · obtain ⟨init, rfl⟩ : ∃ init, items = init ++ [Item.esc 36] := by
      induction items using List.reverseRecOn with
      | nil => cases hl
      | append_singleton init i _ =>
        rw [List.getLast?_concat] at hl
        exact ⟨init, by rw [Option.some_inj.mp hl]⟩
    have hstep : anchorStep (init ++ [Item.esc 36]) = (init, true) := by
      unfold anchorStep
      rw [if_pos (List.getLast?_concat init), List.dropLast_concat]
    rw [hstep]
    constructor
    · rw [renderAll_append]
      have hren : renderAll [Item.esc 36] = [92, 36] := rfl
      rw [hren, replaceSuffix_append]
      rfl
    · exact ((itemsOK_append_iff _ _).mp hOK).1
  · have hstep : anchorStep items = (items, false) := by
      unfold anchorStep
      rw [if_neg hl]
    rw [hstep]
    refine ⟨?_, hOK⟩
    have hns : ¬ ([92, 36] : List Nat).isSuffixOf (renderAll items) = true := by
      intro hsuf
      obtain ⟨t, ht⟩ := List.isSuffixOf_iff_suffix.mp hsuf
      have hlast : (renderAll items).getLast? = some 36 := by
        rw [← ht]
        have h2 : t ++ [92, 36] = (t ++ [92]) ++ [36] := by simp
        rw [h2, List.getLast?_concat]
      obtain ⟨init, i, hspl, hli, hOKi, -⟩ := renderAll_split_last items hOK 36 hlast
      have hi : i = Item.esc 36 := item_last_esc36 i hOKi hli
      rw [hi] at hspl
      rw [hspl, List.getLast?_concat] at hl
      exact hl rfl
    unfold replaceSuffix
    rw [if_neg hns]
    simp

/-- Stage D: the trailing-`%24` replacement on rendered well-formed items
(with an optional anchor byte) is the item-level `pct24Step`. -/
theorem stageD_pct24 (items : List Item) (anch : Bool) (hOK : itemsOK items = true) :
    replaceSuffix (renderAll items ++ cond anch [36] []) pct24 [92, 36] =
      renderAll (pct24Step (items, anch)).1 ++ cond (pct24Step (items, anch)).2 [36] [] ∧
    itemsOK (pct24Step (items, anch)).1 = true ∧ (pct24Step (items, anch)).2 = anch := by
  cases anch with
  | true =>
    have hstep : pct24Step (items, true) = (items, true) := rfl
    rw [hstep]
    refine ⟨?_, hOK, rfl⟩
    have hns : ¬ pct24.isSuffixOf (renderAll items ++ [36]) = true := by
      intro hsuf
      obtain ⟨t, ht⟩ := List.isSuffixOf_iff_suffix.mp hsuf
      have h52 : (renderAll items ++ [36]).getLast? = some 52 := by
        rw [← ht]
        have h2 : t ++ pct24 = (t ++ [37, 50]) ++ [52] := by simp [pct24]
        rw [h2, List.getLast?_concat]
      rw [List.getLast?_concat] at h52
      cases h52
    show replaceSuffix (renderAll items ++ [36]) pct24 [92, 36] = renderAll items ++ [36]
    unfold replaceSuffix
    rw [if_neg hns]
  | false =>
    rw [show (cond false [36] [] : List Nat) = [] from rfl, List.append_nil]
    by_cases ht : items.reverse.take 3 = [Item.bare 52, Item.bare 50, Item.bare 37]
    · have he : items = (items.reverse.drop 3).reverse ++
          [Item.bare 37, Item.bare 50, Item.bare 52] := by
        have h1 := List.take_append_drop 3 items.reverse
        rw [ht] at h1
        have h2 := congrArg List.reverse h1
        rw [List.reverse_reverse, List.reverse_append] at h2
        simpa using h2.symm
      have hstep : pct24Step (items, false) =
          ((items.reverse.drop 3).reverse ++ [Item.esc 36], false) := by
        simp [pct24Step, ht]
      rw [hstep]
      have hOKd : itemsOK (items.reverse.drop 3).reverse = true := by
        have h4 := hOK
        rw [he] at h4
        exact ((itemsOK_append_iff _ _).mp h4).1
      refine ⟨?_, ?_, rfl⟩
      · conv_lhs => rw [he]
        have hren : renderAll [Item.bare 37, Item.bare 50, Item.bare 52] = pct24 := rfl
        rw [renderAll_append, hren, replaceSuffix_append]
        simp [renderAll_append, renderAll, renderItem]
      · rw [itemsOK_append_iff]
        exact ⟨hOKd, by decide⟩
    · have hstep : pct24Step (items, false) = (items, false) := by
        simp [pct24Step, ht]
      rw [hstep]
      refine ⟨?_, hOK, rfl⟩
      have hns : ¬ pct24.isSuffixOf (renderAll items) = true := by
        intro hsuf
        obtain ⟨t, hts⟩ := List.isSuffixOf_iff_suffix.mp hsuf
        obtain ⟨init, hinit, -, -⟩ :=
          renderAll_split_bare_suffix pct24 (by decide) items hOK t hts.symm
        have h5 : items.reverse.take 3 = [Item.bare 52, Item.bare 50, Item.bare 37] := by
          rw [hinit, reverse_take_of_append _ _ 3 (by rfl)]
          rfl
        exact ht h5
      unfold replaceSuffix
      rw [if_neg hns]
      simp

/-- Stage E: the trailing-`%2524` replacement on rendered well-formed items
(with an optional anchor byte) is the item-level `pct2524Step`. -/
theorem stageE_pct2524 (items : List Item) (anch : Bool) (hOK : itemsOK items = true) :
    replaceSuffix (renderAll items ++ cond anch [36] []) pct2524 pct24 =
      renderAll (pct2524Step (items, anch)).1 ++
        cond (pct2524Step (items, anch)).2 [36] [] ∧
    itemsOK (pct2524Step (items, anch)).1 = true ∧
    (pct2524Step (items, anch)).2 = anch := by
  cases anch with
  | true =>
    have hstep : pct2524Step (items, true) = (items, true) := rfl
    rw [hstep]
    refine ⟨?_, hOK, rfl⟩
    have hns : ¬ pct2524.isSuffixOf (renderAll items ++ [36]) = true := by
      intro hsuf
      obtain ⟨t, hts⟩ := List.isSuffixOf_iff_suffix.mp hsuf
      have h52 : (renderAll items ++ [36]).getLast? = some 52 := by
        rw [← hts]
        have h2 : t ++ pct2524 = (t ++ [37, 50, 53, 50]) ++ [52] := by simp [pct2524]
        rw [h2, List.getLast?_concat]
      rw [List.getLast?_concat] at h52
      cases h52
    show replaceSuffix (renderAll items ++ [36]) pct2524 pct24 = renderAll items ++ [36]
    unfold replaceSuffix
    rw [if_neg hns]
  | false =>
    rw [show (cond false [36] [] : List Nat) = [] from rfl, List.append_nil]
    by_cases ht : items.reverse.take 5 =
        [Item.bare 52, Item.bare 50, Item.bare 53, Item.bare 50, Item.bare 37]
    · have he : items = (items.reverse.drop 5).reverse ++
          [Item.bare 37, Item.bare 50, Item.bare 53, Item.bare 50, Item.bare 52] := by
        have h1 := List.take_append_drop 5 items.reverse
        rw [ht] at h1
        have h2 := congrArg List.reverse h1
        rw [List.reverse_reverse, List.reverse_append] at h2
        simpa using h2.symm
      have hstep : pct2524Step (items, false) =
          ((items.reverse.drop 5).reverse ++
            [Item.bare 37, Item.bare 50, Item.bare 52], false) := by
        simp [pct2524Step, ht]
      rw [hstep]
      have hOKd : itemsOK (items.reverse.drop 5).reverse = true := by
        have h4 := hOK
        rw [he] at h4
        exact ((itemsOK_append_iff _ _).mp h4).1
      refine ⟨?_, ?_, rfl⟩
      · conv_lhs => rw [he]
        have hren : renderAll [Item.bare 37, Item.bare 50, Item.bare 53,
            Item.bare 50, Item.bare 52] = pct2524 := rfl
        rw [renderAll_append, hren, replaceSuffix_append]
        simp [renderAll_append, renderAll, renderItem, pct24]
      · rw [itemsOK_append_iff]
        exact ⟨hOKd, by decide⟩
    · have hstep : pct2524Step (items, false) = (items, false) := by
        simp [pct2524Step, ht]
      rw [hstep]
      refine ⟨?_, hOK, rfl⟩
      have hns : ¬ pct2524.isSuffixOf (renderAll items) = true := by
        intro hsuf
        obtain ⟨t, hts⟩ := List.isSuffixOf_iff_suffix.mp hsuf
        obtain ⟨init, hinit, -, -⟩ :=
          renderAll_split_bare_suffix pct2524 (by decide) items hOK t hts.symm
        have h5 : items.reverse.take 5 =
            [Item.bare 52, Item.bare 50, Item.bare 53, Item.bare 50, Item.bare 37] := by
          rw [hinit, reverse_take_of_append _ _ 5 (by rfl)]
          rfl
        exact ht h5
      unfold replaceSuffix
      rw [if_neg hns]
      simp

/-- Fuelled item-level worker for the global `%2A`-to-`\*` replacement;
each step consumes at least one item. -/
def pctStarsF : Nat → List Item → List Item
  | _, [] => []
  | 0, l => l
  | f + 1, i :: rest =>
    if (i :: rest).take 3 = [Item.bare 37, Item.bare 50, Item.bare 65] then
      Item.esc 42 :: pctStarsF f ((i :: rest).drop 3)
    else
      i :: pctStarsF f rest

/-- The global `%2A`-to-`\*` replacement at the item level. -/
def pctStars (l : List Item) : List Item := pctStarsF l.length l

theorem pctStarsF_fuel : ∀ (f g : Nat) (l : List Item), l.length ≤ f → l.length ≤ g →
    pctStarsF f l = pctStarsF g l := by
  intro f
  induction f with
  | zero =>
    intro g l hf _
    have hl : l = [] := List.length_eq_zero.mp (Nat.le_zero.mp hf)
    subst hl
    cases g <;> rfl
  | succ f ih =>
    intro g l hf hg
    cases l with
    | nil => cases g <;> rfl
    | cons i rest =>
      cases g with
      | zero => simp at hg
      | succ g =>
        show (if (i :: rest).take 3 = _ then _ else _) = (if (i :: rest).take 3 = _ then _ else _)
        by_cases hc : (i :: rest).take 3 = [Item.bare 37, Item.bare 50, Item.bare 65]
        · rw [if_pos hc, if_pos hc]
          congr 1
          exact ih g _ (by simp at hf ⊢; omega) (by simp at hg ⊢; omega)
        · rw [if_neg hc, if_neg hc]
          congr 1
          exact ih g rest (by simp at hf; omega) (by simp at hg; omega)

theorem pctStars_nil : pctStars [] = [] := rfl

theorem pctStars_cons_pos (l : List Item)
    (h : l.take 3 = [Item.bare 37, Item.bare 50, Item.bare 65]) :
    pctStars l = Item.esc 42 :: pctStars (l.drop 3) := by
  cases l with
  | nil => cases h
  | cons i rest =>
    show pctStarsF (rest.length + 1) (i :: rest) = _
    have he : pctStarsF (rest.length + 1) (i :: rest) =
        if (i :: rest).take 3 = [Item.bare 37, Item.bare 50, Item.bare 65] then
          Item.esc 42 :: pctStarsF rest.length ((i :: rest).drop 3)
        else i :: pctStarsF rest.length rest := rfl
    rw [he, if_pos h]
    congr 1
    exact pctStarsF_fuel rest.length _ _ (by simp [List.length_drop]) (le_refl _)

theorem pctStars_cons_neg (i : Item) (rest : List Item)
    (h : ¬ (i :: rest).take 3 = [Item.bare 37, Item.bare 50, Item.bare 65]) :
    pctStars (i :: rest) = i :: pctStars rest := by
  show pctStarsF (rest.length + 1) (i :: rest) = _
  have he : pctStarsF (rest.length + 1) (i :: rest) =
      if (i :: rest).take 3 = [Item.bare 37, Item.bare 50, Item.bare 65] then
        Item.esc 42 :: pctStarsF rest.length ((i :: rest).drop 3)
      else i :: pctStarsF rest.length rest := rfl
  rw [he, if_neg h]
  rfl

theorem special_ne_plain (b : Nat) (h : special b = true) :
    b ≠ 37 ∧ b ≠ 50 ∧ b ≠ 65 ∧ b < 128 ∧ isAlnumByte b = false := by
  simp only [special, Bool.or_eq_true, decide_eq_true_eq] at h
  rcases h with ((((((((((((h | h) | h) | h) | h) | h) | h) | h) | h) | h) | h) | h) | h) | h <;>
    subst h <;> refine ⟨by omega, by omega, by omega, by omega, by decide⟩

/-- First-byte classification: if the bytes of a well-formed item list
(followed by a tail) start with a plain ASCII byte not occurring in the
tail, the first item is exactly that bare byte. -/
theorem head_plain (rest : List Item) (hOK : itemsOK rest = true) (tail : List Nat)
    (c : Nat) (hc : c < 128) (hcs : special c = false) (hct : ∀ x ∈ tail, x ≠ c)
    (X : List Nat) (h : renderAll rest ++ tail = c :: X) :
    ∃ rest', rest = Item.bare c :: rest' ∧ renderAll rest' ++ tail = X := by
  cases rest with
  | nil =>
    exact absurd rfl (hct c (by rw [show renderAll [] ++ tail = tail from rfl] at h; simp [h]))
  | cons i r =>
    rcases (itemsOK_cons_iff i r).mp hOK with ⟨hi, -⟩
    cases i with
    | esc b =>
      have h92 : (92 : Nat) = c ∧ b :: (renderAll r ++ tail) = X := by
        have h2 : 92 :: b :: (renderAll r ++ tail) = c :: X := h
        exact ⟨by injection h2, by injection h2 with _ h3⟩
      rw [← h92.1] at hcs
      simp [special] at hcs
    | bare b =>
      have hb : b = c ∧ renderAll r ++ tail = X := by
        have h2 : b :: (renderAll r ++ tail) = c :: X := h
        exact ⟨by injection h2, by injection h2 with _ h3⟩
      exact ⟨r, by rw [hb.1], hb.2⟩
    | mb b t =>
      have hb : b = c := by
        have h2 : b :: (t ++ (renderAll r ++ tail)) = c :: X := by
          simpa [renderAll, renderItem] using h
        injection h2
      have hhigh : 194 ≤ b := mb_lead_high b t hi
      omega
    | wild =>
      have h40 : (40 : Nat) = c := by
        have h2 : 40 :: ([63, 58, 46, 42, 41] ++ (renderAll r ++ tail)) = c :: X := h
        injection h2
      rw [← h40] at hcs
      simp [special] at hcs

theorem pctStarsF_OK : ∀ (n : Nat) (items : List Item), itemsOK items = true →
    itemsOK (pctStarsF n items) = true := by
  intro n
  induction n with
  | zero => intro items h; cases items <;> simpa using h
  | succ n ih =>
    intro items h
    cases items with
    | nil => rfl
    | cons i rest =>
      show itemsOK (if (i :: rest).take 3 = _ then _ else _) = true
      by_cases hc : (i :: rest).take 3 = [Item.bare 37, Item.bare 50, Item.bare 65]
      · rw [if_pos hc]
        rw [itemsOK_cons_iff]
        refine ⟨by decide, ?_⟩
        apply ih
        cases rest with
        | nil => simp at hc
        | cons j rest2 =>
          cases rest2 with
          | nil => simp at hc
          | cons k rest3 =>
            simp only [itemsOK, List.all_cons, Bool.and_eq_true] at h
            show (List.drop 3 (i :: j :: k :: rest3)).all itemOK = true
            simpa [itemsOK] using h.2.2.2
      · rw [if_neg hc]
        rcases (itemsOK_cons_iff i rest).mp h with ⟨hi, hrest⟩
        rw [itemsOK_cons_iff]
        exact ⟨hi, ih rest hrest⟩

theorem pctStars_OK (items : List Item) (h : itemsOK items = true) :
    itemsOK (pctStars items) = true := pctStarsF_OK items.length items h

theorem replaceAll_pct2A_append (xs s : List Nat) (hxs : ∀ c ∈ xs, c ≠ 37) :
    replaceAll pct2A [92, 42] (xs ++ s) = xs ++ replaceAll pct2A [92, 42] s :=
  replaceAll_append_ne_head 37 [50, 65] [92, 42] xs s hxs

/-- Stage F: the global `%2A` replacement on rendered well-formed items
(with an inert byte tail) is the item-level `pctStars`. -/
theorem stageF_aux : ∀ (n : Nat) (items : List Item), items.length ≤ n →
    itemsOK items = true → ∀ (tail : List Nat), (∀ c ∈ tail, c ≠ 37 ∧ c ≠ 50 ∧ c ≠ 65) →
    replaceAll pct2A [92, 42] (renderAll items ++ tail) = renderAll (pctStarsF n items) ++ tail := by
  intro n
  induction n with
  | zero =>
    intro items hn hOK tail htail
    have hi : items = [] := List.length_eq_zero.mp (Nat.le_zero.mp hn)
    subst hi
    show replaceAll (37 :: [50, 65]) [92, 42] ([] ++ tail) = [] ++ tail
    exact replaceAll_of_no_head 37 [50, 65] [92, 42] tail (fun c hc => (htail c hc).1)
  | succ n ih =>
    intro items hn hOK tail htail
    cases items with
    | nil =>
      show replaceAll (37 :: [50, 65]) [92, 42] ([] ++ tail) = [] ++ tail
      exact replaceAll_of_no_head 37 [50, 65] [92, 42] tail (fun c hc => (htail c hc).1)
    | cons i rest =>
      rcases (itemsOK_cons_iff i rest).mp hOK with ⟨hi, hrest⟩
      have hstep : pctStarsF (n + 1) (i :: rest) =
          if (i :: rest).take 3 = [Item.bare 37, Item.bare 50, Item.bare 65] then
            Item.esc 42 :: pctStarsF n ((i :: rest).drop 3)
          else i :: pctStarsF n rest := rfl
      by_cases hc : (i :: rest).take 3 = [Item.bare 37, Item.bare 50, Item.bare 65]
      · -- the triple case: items start with bare 37, bare 50, bare 65
        obtain ⟨rest2, hre⟩ : ∃ rest2, i :: rest = Item.bare 37 :: Item.bare 50 ::
            Item.bare 65 :: rest2 := by
          cases rest with
          | nil => simp at hc
          | cons j r2 =>
            cases r2 with
            | nil => simp at hc
            | cons k r3 =>
              simp only [List.take, List.cons.injEq, and_true] at hc
              exact ⟨r3, by rw [hc.1, hc.2.1, hc.2.2]⟩
        have hOK2 : itemsOK rest2 = true := by
          rw [hre] at hOK
          simp only [itemsOK, List.all_cons, Bool.and_eq_true] at hOK
          exact hOK.2.2.2
        have hlen : rest2.length ≤ n := by
          rw [hre] at hn
          simp at hn
          omega
        rw [hstep, if_pos hc, hre]
        have hbytes : renderAll (Item.bare 37 :: Item.bare 50 :: Item.bare 65 :: rest2) ++ tail =
            37 :: 50 :: 65 :: (renderAll rest2 ++ tail) := by
          simp [renderAll, renderItem]
        rw [hbytes]
        rw [replaceAll_cons_pos pct2A [92, 42] 37 (50 :: 65 :: (renderAll rest2 ++ tail))
          (by simp [pct2A]) (by simp [pct2A, List.isPrefixOf])]
        have hdrop : (37 :: 50 :: 65 :: (renderAll rest2 ++ tail)).drop pct2A.length =
            renderAll rest2 ++ tail := rfl
        rw [hdrop]
        rw [ih rest2 hlen hOK2 tail htail]
        have hdrop2 : List.drop 3 (Item.bare 37 :: Item.bare 50 :: Item.bare 65 :: rest2) =
            rest2 := rfl
        rw [hdrop2]
        simp [renderAll, renderItem]
      · -- no triple starts here: the first item is copied unchanged
        rw [hstep, if_neg hc]
        have hskip : ∀ (Y : List Nat), replaceAll pct2A [92, 42] (renderItem i ++ Y) =
            renderItem i ++ replaceAll pct2A [92, 42] Y → True := fun _ _ => trivial
        cases i with
        | esc b =>
          have hb := special_ne_plain b hi
          have h1 : renderAll (Item.esc b :: rest) ++ tail =
              [92, b] ++ (renderAll rest ++ tail) := by simp [renderAll, renderItem]
          rw [h1, replaceAll_pct2A_append [92, b] _
              (by intro c hcm; simp at hcm; rcases hcm with h | h <;> omega)]
          rw [ih rest (by simp at hn; omega) hrest tail htail]
          simp [renderAll, renderItem]
        | bare b =>
          by_cases hb37 : b = 37
          · -- bare 37 but the next items are not bare 50, bare 65
            subst hb37
            have h1 : renderAll (Item.bare 37 :: rest) ++ tail =
                37 :: (renderAll rest ++ tail) := by simp [renderAll, renderItem]
            rw [h1]
            rw [replaceAll_cons_neg pct2A [92, 42] 37 (renderAll rest ++ tail) ?hnp]
            case hnp =>
              intro hcon
              rcases hcon with ⟨-, hpre⟩
              obtain ⟨t, hts⟩ := List.isPrefixOf_iff_prefix.mp hpre
              have hts2 : renderAll rest ++ tail = 50 :: (65 :: t) := by
                have h3 : 37 :: 50 :: 65 :: t = 37 :: (renderAll rest ++ tail) := hts
                injection h3 with _ h4
                exact h4.symm
              obtain ⟨rest', hr1, hr2⟩ := head_plain rest hrest tail 50 (by omega)
                (by decide) (fun x hx => (htail x hx).2.1) _ hts2
              obtain ⟨rest'', hr3, -⟩ := head_plain rest'
                (((itemsOK_cons_iff _ _).mp (hr1 ▸ hrest)).2) tail 65 (by omega)
                (by decide) (fun x hx => (htail x hx).2.2) _ hr2
              rw [hr1, hr3] at hc
              simp at hc
            rw [ih rest (by simp at hn; omega) hrest tail htail]
            simp [renderAll, renderItem]
          · have h1 : renderAll (Item.bare b :: rest) ++ tail =
                b :: (renderAll rest ++ tail) := by simp [renderAll, renderItem]
            rw [h1]
            rw [replaceAll_cons_neg pct2A [92, 42] b (renderAll rest ++ tail) (by
              intro hcon
              rcases hcon with ⟨-, hpre⟩
              simp only [pct2A, List.isPrefixOf, Bool.and_eq_true, beq_iff_eq] at hpre
              exact hb37 hpre.1.symm)]
            rw [ih rest (by simp at hn; omega) hrest tail htail]
            simp [renderAll, renderItem]
        | mb b t =>
          have h1 : renderAll (Item.mb b t :: rest) ++ tail =
              (b :: t) ++ (renderAll rest ++ tail) := by simp [renderAll, renderItem]
          rw [h1, replaceAll_pct2A_append (b :: t) _ (by
              intro c hcm
              have := mb_bytes_high b t hi c (by simpa [renderItem] using hcm)
              omega)]
          rw [ih rest (by simp at hn; omega) hrest tail htail]
          simp [renderAll, renderItem]
        | wild =>
          have h1 : renderAll (Item.wild :: rest) ++ tail =
              wildBytes ++ (renderAll rest ++ tail) := by simp [renderAll, renderItem]
          rw [h1, replaceAll_pct2A_append wildBytes _ (by decide)]
          rw [ih rest (by simp at hn; omega) hrest tail htail]
          simp [renderAll, renderItem]

theorem stageF_pct2A (items : List Item) (hOK : itemsOK items = true) (tail : List Nat)
    (htail : ∀ c ∈ tail, c ≠ 37 ∧ c ≠ 50 ∧ c ≠ 65) :
    replaceAll pct2A [92, 42] (renderAll items ++ tail) =
      renderAll (pctStars items) ++ tail :=
  stageF_aux items.length items (le_refl _) hOK tail htail

/-! ## Parsing the rendered items -/

theorem parseStep_length (b : Nat) (rest : List Nat) (p : RTok × List Nat)
    (h : parseStep b rest = some p) : p.2.length ≤ rest.length := by
  unfold parseStep at h
  repeat' split at h
  all_goals (try cases h)
  all_goals simp [List.length_tail, List.length_drop]
  all_goals omega

theorem parseRegexF_fuel : ∀ (f g : Nat) (bs : List Nat), bs.length ≤ f → bs.length ≤ g →
    parseRegexF f bs = parseRegexF g bs := by
  intro f
  induction f with
  | zero =>
    intro g bs hf _
    have hb : bs = [] := List.length_eq_zero.mp (Nat.le_zero.mp hf)
    subst hb
    cases g <;> rfl
  | succ f ih =>
    intro g bs hf hg
    cases bs with
    | nil => cases g <;> rfl
    | cons b rest =>
      cases g with
      | zero => simp at hg
      | succ g =>
        have h1 : parseRegexF (f + 1) (b :: rest) =
            if b = 36 ∧ rest = [] then some ([], true)
            else (parseStep b rest).bind fun p =>
              (fun q => (p.1 :: q.1, q.2)) <$> parseRegexF f p.2 := rfl
        have h2 : parseRegexF (g + 1) (b :: rest) =
            if b = 36 ∧ rest = [] then some ([], true)
            else (parseStep b rest).bind fun p =>
              (fun q => (p.1 :: q.1, q.2)) <$> parseRegexF g p.2 := rfl
        rw [h1, h2]
        by_cases hb : b = 36 ∧ rest = []
        · rw [if_pos hb, if_pos hb]
        · rw [if_neg hb, if_neg hb]
          cases hps : parseStep b rest with
          | none => rfl
          | some p =>
            have h3 := parseStep_length b rest p hps
            have h4 : parseRegexF f p.2 = parseRegexF g p.2 :=
              ih g p.2 (by simp at hf; omega) (by simp at hg; omega)
            show ((fun q => (p.1 :: q.1, q.2)) <$> parseRegexF f p.2) =
              ((fun q => (p.1 :: q.1, q.2)) <$> parseRegexF g p.2)
            rw [h4]

theorem parseRegexAux_nil : parseRegexAux [] = some ([], false) := rfl

theorem parseRegexAux_cons (b : Nat) (rest : List Nat) :
    parseRegexAux (b :: rest) =
      if b = 36 ∧ rest = [] then some ([], true)
      else (parseStep b rest).bind fun p =>
        (fun q => (p.1 :: q.1, q.2)) <$> parseRegexAux p.2 := by
  have h1 : parseRegexAux (b :: rest) =
      if b = 36 ∧ rest = [] then some ([], true)
      else (parseStep b rest).bind fun p =>
        (fun q => (p.1 :: q.1, q.2)) <$> parseRegexF rest.length p.2 := rfl
  rw [h1]
  by_cases hb : b = 36 ∧ rest = []
  · rw [if_pos hb, if_pos hb]
  · rw [if_neg hb, if_neg hb]
    cases hps : parseStep b rest with
    | none => rfl
    | some p =>
      have h3 := parseStep_length b rest p hps
      show ((fun q => (p.1 :: q.1, q.2)) <$> parseRegexF rest.length p.2) =
        ((fun q => (p.1 :: q.1, q.2)) <$> parseRegexAux p.2)
      rw [parseRegexF_fuel rest.length p.2.length p.2 h3 (le_refl _)]
      rfl

/-- Parsing the bytes of one well-formed item consumes exactly that item
and yields its token. -/
theorem parseRegexAux_item (i : Item) (hOK : itemOK i = true) (bs : List Nat) :
    parseRegexAux (renderItem i ++ bs) =
      (fun q => (itemTok i :: q.1, q.2)) <$> parseRegexAux bs := by
  cases i with
  | esc b =>
    simp only [itemOK] at hOK
    have hb := special_ne_plain b hOK
    rw [show renderItem (Item.esc b) ++ bs = 92 :: (b :: bs) from rfl, parseRegexAux_cons]
    rw [if_neg (by intro hcon; omega)]
    have hps : parseStep 92 (b :: bs) = some (RTok.lit b, bs) := by
      unfold parseStep
      rw [if_neg (by omega : ¬ (92 : Nat) = 36), if_pos rfl,
        if_neg (by simp : ¬ (b :: bs) = [])]
      have hh : (b :: bs).headI = b := rfl
      rw [hh]
      rw [if_pos (by simp [hb.2.2.2.2]; omega)]
      rfl
    rw [hps]
    rfl
  | bare b =>
    simp only [itemOK, Bool.and_eq_true, decide_eq_true_eq, Bool.not_eq_true'] at hOK
    rcases hOK with ⟨hlt, hsp⟩
    have h36 : ¬ b = 36 := by intro h; subst h; simp [special] at hsp
    have h92 : ¬ b = 92 := by intro h; subst h; simp [special] at hsp
    have h40 : ¬ b = 40 := by intro h; subst h; simp [special] at hsp
    rw [show renderItem (Item.bare b) ++ bs = b :: bs from rfl, parseRegexAux_cons]
    rw [if_neg (by intro hcon; exact h36 hcon.1)]
    have hps : parseStep b bs = some (RTok.lit b, bs) := by
      unfold parseStep
      rw [if_neg h36, if_neg h92, if_neg h40, if_pos hlt, if_neg (by simp [hsp])]
    rw [hps]
    rfl
  | mb b t =>
    rcases t with _ | ⟨t1, _ | ⟨t2, _ | ⟨t3, _ | ⟨t4, t5⟩⟩⟩⟩
    · simp [itemOK] at hOK
    · simp only [itemOK, Bool.and_eq_true, decide_eq_true_eq] at hOK
      rcases hOK with ⟨hr, hct⟩
      rw [show renderItem (Item.mb b [t1]) ++ bs = b :: (t1 :: bs) from rfl,
        parseRegexAux_cons]
      rw [if_neg (by intro hcon; omega)]
      have hps : parseStep b (t1 :: bs) = some (RTok.lit (rune2 b t1), bs) := by
        unfold parseStep
        rw [if_neg (by omega : ¬ b = 36), if_neg (by omega : ¬ b = 92),
          if_neg (by omega : ¬ b = 40), if_neg (by omega : ¬ b < 128), if_pos hr]
        have hh : (t1 :: bs).headI = t1 := rfl
        rw [hh, if_pos hct]
        rfl
      rw [hps]
      rfl
    · simp only [itemOK, Bool.and_eq_true, decide_eq_true_eq] at hOK
      rcases hOK with ⟨⟨hr, ha⟩, hct⟩
      rw [show renderItem (Item.mb b [t1, t2]) ++ bs = b :: (t1 :: t2 :: bs) from rfl,
        parseRegexAux_cons]
      rw [if_neg (by intro hcon; omega)]
      have hps : parseStep b (t1 :: t2 :: bs) =
          some (RTok.lit (rune3 b t1 t2), bs) := by
        unfold parseStep
        rw [if_neg (by omega : ¬ b = 36), if_neg (by omega : ¬ b = 92),
          if_neg (by omega : ¬ b = 40), if_neg (by omega : ¬ b < 128),
          if_neg (by omega : ¬ (194 ≤ b ∧ b ≤ 223)), if_pos hr]
        have hh1 : (t1 :: t2 :: bs).headI = t1 := rfl
        have hh2 : (t1 :: t2 :: bs).tail.headI = t2 := rfl
        rw [hh1, hh2, if_pos (by simp [ha, hct])]
        rfl
      rw [hps]
      rfl
    · simp only [itemOK, Bool.and_eq_true, decide_eq_true_eq] at hOK
      rcases hOK with ⟨⟨⟨hr, ha⟩, hc2⟩, hc3⟩
      rw [show renderItem (Item.mb b [t1, t2, t3]) ++ bs =
        b :: (t1 :: t2 :: t3 :: bs) from rfl, parseRegexAux_cons]
      rw [if_neg (by intro hcon; omega)]
      have hps : parseStep b (t1 :: t2 :: t3 :: bs) =
          some (RTok.lit (rune4 b t1 t2 t3), bs) := by
        unfold parseStep
        rw [if_neg (by omega : ¬ b = 36), if_neg (by omega : ¬ b = 92),
          if_neg (by omega : ¬ b = 40), if_neg (by omega : ¬ b < 128),
          if_neg (by omega : ¬ (194 ≤ b ∧ b ≤ 223)),
          if_neg (by omega : ¬ (224 ≤ b ∧ b ≤ 239)), if_pos hr]
        have hh1 : (t1 :: t2 :: t3 :: bs).headI = t1 := rfl
        have hh2 : (t1 :: t2 :: t3 :: bs).tail.headI = t2 := rfl
        have hh3 : (t1 :: t2 :: t3 :: bs).tail.tail.headI = t3 := rfl
        rw [hh1, hh2, hh3, if_pos (by simp [ha, hc2, hc3])]
        rfl
      rw [hps]
      rfl
    · simp [itemOK] at hOK
  | wild =>
    rw [show renderItem Item.wild ++ bs = 40 :: (63 :: 58 :: 46 :: 42 :: 41 :: bs) from rfl,
      parseRegexAux_cons]
    rw [if_neg (by intro hcon; omega)]
    have hps : parseStep 40 (63 :: 58 :: 46 :: 42 :: 41 :: bs) =
        some (RTok.wild, bs) := by
      unfold parseStep
      rw [if_neg (by omega : ¬ (40 : Nat) = 36), if_neg (by omega : ¬ (40 : Nat) = 92),
        if_pos rfl]
      have ht : (63 :: 58 :: 46 :: 42 :: 41 :: bs).take 5 = [63, 58, 46, 42, 41] := rfl
      rw [ht, if_pos rfl]
      rfl
    rw [hps]
    rfl

/-- Stage G: the regex parser accepts the bytes of any well-formed item
list, optionally followed by the end anchor, and produces the items'
tokens. -/
theorem parseRegexAux_renderAll (items : List Item) (hOK : itemsOK items = true)
    (anch : Bool) :
    parseRegexAux (renderAll items ++ cond anch [36] []) =
      some (items.map itemTok, anch) := by
  induction items with
  | nil =>
    cases anch with
    | true => rfl
    | false => rfl
  | cons i rest ih =>
    rcases (itemsOK_cons_iff i rest).mp hOK with ⟨hi, hrest⟩
    have h1 : renderAll (i :: rest) ++ cond anch [36] [] =
        renderItem i ++ (renderAll rest ++ cond anch [36] []) := by
      simp [renderAll]
    rw [h1, parseRegexAux_item i hi _, ih hrest]
    rfl

theorem parse_renderAll (items : List Item) (hOK : itemsOK items = true) (anch : Bool) :
    parseRegex (renderAll items ++ cond anch [36] []) =
      some (Regexp.mk (items.map itemTok) anch) := by
  unfold parseRegex
  rw [parseRegexAux_renderAll items hOK anch]
  rfl

theorem tail_inert (b : Bool) : ∀ c ∈ (cond b [36] [] : List Nat),
    c ≠ 37 ∧ c ≠ 50 ∧ c ≠ 65 := by
  cases b <;> intro c hc <;> simp at hc
  omega

/-- Full characterization of `compilePattern` on valid-UTF-8 byte strings:
it succeeds, and the compiled regex is the token list of the item pipeline
(quote, wildcard, anchor, `%24`, `%2524`, `%2A` stages). -/
theorem compilePattern_eq (bs : List Nat) (items : List Item) (h : qItems bs = some items) :
    compilePattern bs =
      some (Regexp.mk
        ((pctStars (pct2524Step (pct24Step (anchorStep (items.map wildify)))).1).map itemTok)
        (pct2524Step (pct24Step (anchorStep (items.map wildify)))).2) := by
  obtain ⟨hq, hOK⟩ := qItems_spec bs items h
  have hOKw : itemsOK (items.map wildify) = true := itemsOK_map_wildify items hOK
  obtain ⟨hC, hOKC⟩ := stageC_anchor (items.map wildify) hOKw
  obtain ⟨hD, hOKD, -⟩ := stageD_pct24 (anchorStep (items.map wildify)).1
    (anchorStep (items.map wildify)).2 hOKC
  obtain ⟨hE, hOKE, -⟩ := stageE_pct2524
    (pct24Step ((anchorStep (items.map wildify)).1, (anchorStep (items.map wildify)).2)).1
    (pct24Step ((anchorStep (items.map wildify)).1, (anchorStep (items.map wildify)).2)).2
    hOKD
  show parseRegex (replaceAll pct2A [92, 42]
      (replaceSuffix (replaceSuffix (replaceSuffix
        (replaceAll [92, 42] wildBytes (quoteMeta bs)) [92, 36] [36])
        pct24 [92, 36]) pct2524 pct24)) = _
  rw [hq, stageB_wild items hOK, hC, hD, hE]
  rw [stageF_pct2A _ hOKE _ (tail_inert _)]
  exact parse_renderAll _ (pctStars_OK _ hOKE) _

/-! ## C10: pattern compilation in `addPathRule` -/

/-- C10 (counterexample): the directive path `/%FF*` is a pattern whose
processed byte string contains the invalid-UTF-8 byte `0xFF`, so
`compilePattern` fails on it, and parsing a file with that `Disallow`
line creates the agent's group but silently drops the directive — the
compile-error branch of `addPathRule` is reachable. -/
theorem c10_pattern_compile_counterexample :
    isPattern "/%FF*".data = true ∧
    processPath "/%FF*".data = [47, 255, 42] ∧
    compilePattern (processPath "/%FF*".data) = none ∧
    (Parse modelURLParse modelToASCII "User-agent: a\nDisallow: /%FF*".data baseURL).map
      (fun r => (lookupGroup r.groups ['a']).map RGroup.rules) = some (some []) := by
  exact ⟨by decide, by decide, by decide, by decide⟩

/-- C10 (amended): `compilePattern` succeeds on every path whose
processed byte string is valid UTF-8 (which `qItems` recognizes), but it
can fail on invalid UTF-8; when it fails, `addPathRule` still creates
the agent's group and silently drops the rule. -/
theorem c10_pattern_compile_amended :
    (∀ (bs : List Nat) (items : List Item), qItems bs = some items →
      (compilePattern bs).isSome = true) ∧
    (∀ (gs : List (List Char × RGroup)) (ua path : List Char) (allow : Bool),
      isPattern path = true → compilePattern (processPath path) = none →
      addPathRule gs ua path allow =
        setGroup gs ua ((lookupGroup gs ua).getD ⟨[], 0⟩)) := by
  constructor
  · intro bs items h
    rw [compilePattern_eq bs items h]
    rfl
  · intro gs ua path allow hpat hcomp
    simp [addPathRule, hpat, hcomp]

theorem c10_pattern_compile_amended_witness :
    (qItems [47, 97] = some [Item.bare 47, Item.bare 97] ∧
     (compilePattern [47, 97]).isSome = true) ∧
    (isPattern "/%FF*".data = true ∧
     compilePattern (processPath "/%FF*".data) = none ∧
     addPathRule [] ['a'] "/%FF*".data false =
       setGroup [] ['a'] ((lookupGroup [] ['a']).getD ⟨[], 0⟩)) :=
  ⟨⟨by decide,
    c10_pattern_compile_amended.1 [47, 97] [Item.bare 47, Item.bare 97] (by decide)⟩,
   ⟨by decide, by decide,
    c10_pattern_compile_amended.2 [] ['a'] "/%FF*".data false (by decide) (by decide)⟩⟩

/-! ## C3 support: where wildcard tokens come from -/

theorem count42_quoteMeta (bs : List Nat) :
    (quoteMeta bs).count 42 = bs.count 42 := by
  induction bs with
  | nil => rfl
  | cons b bs ih =>
    show ((if special b then [92, b] else [b]) ++ quoteMeta bs).count 42 = _
    by_cases hs : special b <;>
      simp [hs, List.count_append, List.count_cons, ih, List.count_nil]

theorem count42_renderAll (items : List Item) (hOK : itemsOK items = true) :
    (renderAll items).count 42 =
      items.count (Item.esc 42) + items.count Item.wild := by
  induction items with
  | nil => rfl
  | cons i rest ih =>
    rcases (itemsOK_cons_iff i rest).mp hOK with ⟨hi, hrest⟩
    show (renderItem i ++ renderAll rest).count 42 = _
    rw [List.count_append, ih hrest]
    cases i with
    | esc b =>
      by_cases hb : b = 42 <;>
        simp [renderItem, List.count_cons, List.count_nil, List.count_append, hb] <;> omega
    | bare b =>
      have hb : ¬ b = 42 := by
        intro h
        subst h
        simp [itemOK, special] at hi
      simp [renderItem, List.count_cons, List.count_nil, hb]
    | mb b t =>
      have h0 : (renderItem (Item.mb b t)).count 42 = 0 := by
        rw [List.count_eq_zero]
        intro hmem
        have := mb_bytes_high b t hi 42 hmem
        omega
      simp [h0, List.count_cons]
    | wild =>
      simp [renderItem, wildBytes, List.count_cons, List.count_nil] <;> omega

theorem qItemsStep_ne_wild (b : Nat) (rest : List Nat) (p : Item × List Nat)
    (h : qItemsStep b rest = some p) : p.1 ≠ Item.wild := by
  unfold qItemsStep at h
  repeat' split at h
  all_goals (try cases h)
  all_goals simp

theorem qItems_no_wild : ∀ (n : Nat) (bs : List Nat) (items : List Item),
    bs.length ≤ n → qItems bs = some items → Item.wild ∉ items := by
  intro n
  induction n with
  | zero =>
    intro bs items hn h
    have hb : bs = [] := List.length_eq_zero.mp (Nat.le_zero.mp hn)
    subst hb
    cases h
    simp
  | succ n ih =>
    intro bs items hn h
    cases bs with
    | nil =>
      cases h
      simp
    | cons b rest =>
      rw [qItems_cons] at h
      cases hstep : qItemsStep b rest with
      | none => rw [hstep] at h; cases h
      | some p =>
        rw [hstep] at h
        simp only [Option.some_bind] at h
        cases hq : qItems p.2 with
        | none => rw [hq] at h; cases h
        | some tl =>
          rw [hq] at h
          have hitem : items = p.1 :: tl := by
            simpa [Option.map_eq_map] using h.symm
          subst hitem
          intro hmem
          rcases List.mem_cons.mp hmem with hh | hh
          · exact qItemsStep_ne_wild b rest p hstep hh.symm
          · have hlen : p.2.length ≤ n := by
              have := qItemsStep_length b rest p hstep
              simp at hn
              omega
            exact ih p.2 tl hlen hq hh

theorem count_wild_map_wildify : ∀ l : List Item,
    (l.map wildify).count Item.wild = l.count (Item.esc 42) + l.count Item.wild := by
  intro l
  induction l with
  | nil => rfl
  | cons i rest ih =>
    rw [List.map_cons]
    cases i with
    | esc b =>
      by_cases hb : b = 42
      · subst hb
        rw [show wildify (Item.esc 42) = Item.wild from rfl]
        simp [List.count_cons, ih]
        omega
      · rw [show wildify (Item.esc b) = Item.esc b from by simp [wildify, hb]]
        simp [List.count_cons, ih, hb]
    | bare b =>
      rw [show wildify (Item.bare b) = Item.bare b from rfl]
      simp [List.count_cons, ih]
    | mb b t =>
      rw [show wildify (Item.mb b t) = Item.mb b t from rfl]
      simp [List.count_cons, ih]
    | wild =>
      rw [show wildify Item.wild = Item.wild from rfl]
      simp [List.count_cons, ih]
      omega

theorem anchorStep_shape (l : List Item) :
    anchorStep l = (l, false) ∨
    ∃ init, l = init ++ [Item.esc 36] ∧ anchorStep l = (init, true) := by
  by_cases hl : l.getLast? = some (Item.esc 36)
  · right
    obtain ⟨init, rfl⟩ : ∃ init, l = init ++ [Item.esc 36] := by
      induction l using List.reverseRecOn with
      | nil => cases hl
      | append_singleton init i _ =>
        rw [List.getLast?_concat] at hl
        exact ⟨init, by rw [Option.some_inj.mp hl]⟩
    refine ⟨init, rfl, ?_⟩
    unfold anchorStep
    rw [if_pos (List.getLast?_concat init), List.dropLast_concat]
  · left
    unfold anchorStep
    rw [if_neg hl]

theorem pct24Step_shape (l : List Item) (a : Bool) :
    pct24Step (l, a) = (l, a) ∨
    ∃ init, l = init ++ [Item.bare 37, Item.bare 50, Item.bare 52] ∧
      pct24Step (l, a) = (init ++ [Item.esc 36], a) := by
  cases a with
  | true => exact Or.inl rfl
  | false =>
    by_cases ht : l.reverse.take 3 = [Item.bare 52, Item.bare 50, Item.bare 37]
    · right
      have he : l = (l.reverse.drop 3).reverse ++
          [Item.bare 37, Item.bare 50, Item.bare 52] := by
        have h1 := List.take_append_drop 3 l.reverse
        rw [ht] at h1
        have h2 := congrArg List.reverse h1
        rw [List.reverse_reverse, List.reverse_append] at h2
        simpa using h2.symm
      exact ⟨(l.reverse.drop 3).reverse, he, by simp [pct24Step, ht]⟩
    · left
      simp [pct24Step, ht]

theorem pct2524Step_shape (l : List Item) (a : Bool) :
    pct2524Step (l, a) = (l, a) ∨
    ∃ init, l = init ++ [Item.bare 37, Item.bare 50, Item.bare 53, Item.bare 50,
        Item.bare 52] ∧
      pct2524Step (l, a) = (init ++ [Item.bare 37, Item.bare 50, Item.bare 52], a) := by
  cases a with
  | true => exact Or.inl rfl
  | false =>
    by_cases ht : l.reverse.take 5 =
        [Item.bare 52, Item.bare 50, Item.bare 53, Item.bare 50, Item.bare 37]
    · right
      have he : l = (l.reverse.drop 5).reverse ++
          [Item.bare 37, Item.bare 50, Item.bare 53, Item.bare 50, Item.bare 52] := by
        have h1 := List.take_append_drop 5 l.reverse
        rw [ht] at h1
        have h2 := congrArg List.reverse h1
        rw [List.reverse_reverse, List.reverse_append] at h2
        simpa using h2.symm
      exact ⟨(l.reverse.drop 5).reverse, he, by simp [pct2524Step, ht]⟩
    · left
      simp [pct2524Step, ht]

theorem count_wild_anchorStep (l : List Item) :
    (anchorStep l).1.count Item.wild = l.count Item.wild := by
  rcases anchorStep_shape l with h | ⟨init, hl, h⟩ <;> rw [h]
  rw [hl]
  simp [List.count_append, List.count_cons]

theorem count_wild_pct24Step (l : List Item) (a : Bool) :
    (pct24Step (l, a)).1.count Item.wild = l.count Item.wild := by
  rcases pct24Step_shape l a with h | ⟨init, hl, h⟩ <;> rw [h]
  rw [hl]
  simp [List.count_append, List.count_cons]

theorem count_wild_pct2524Step (l : List Item) (a : Bool) :
    (pct2524Step (l, a)).1.count Item.wild = l.count Item.wild := by
  rcases pct2524Step_shape l a with h | ⟨init, hl, h⟩ <;> rw [h]
  rw [hl]
  simp [List.count_append, List.count_cons]

theorem count_wild_pctStarsF : ∀ (n : Nat) (l : List Item),
    (pctStarsF n l).count Item.wild = l.count Item.wild := by
  intro n
  induction n with
  | zero => intro l; cases l <;> rfl
  | succ n ih =>
    intro l
    cases l with
    | nil => rfl
    | cons i rest =>
      have hstep : pctStarsF (n + 1) (i :: rest) =
          if (i :: rest).take 3 = [Item.bare 37, Item.bare 50, Item.bare 65] then
            Item.esc 42 :: pctStarsF n ((i :: rest).drop 3)
          else i :: pctStarsF n rest := rfl
      rw [hstep]
      by_cases hc : (i :: rest).take 3 = [Item.bare 37, Item.bare 50, Item.bare 65]
      · rw [if_pos hc]
        obtain ⟨rest2, hre⟩ : ∃ rest2, i :: rest = Item.bare 37 :: Item.bare 50 ::
            Item.bare 65 :: rest2 := by
          cases rest with
          | nil => simp at hc
          | cons j r2 =>
            cases r2 with
            | nil => simp at hc
            | cons k r3 =>
              simp only [List.take, List.cons.injEq, and_true] at hc
              exact ⟨r3, by rw [hc.1, hc.2.1, hc.2.2]⟩
        rw [hre]
        have hd : List.drop 3 (Item.bare 37 :: Item.bare 50 :: Item.bare 65 :: rest2) =
            rest2 := rfl
        rw [hd]
        simp [List.count_cons, ih rest2]
      · rw [if_neg hc]
        simp [List.count_cons, ih rest]

theorem itemTok_wild_iff (i : Item) : itemTok i = RTok.wild ↔ i = Item.wild := by
  cases i with
  | esc b => simp [itemTok]
  | bare b => simp [itemTok]
  | mb b t =>
    rcases t with _ | ⟨t1, _ | ⟨t2, _ | ⟨t3, _ | ⟨t4, t5⟩⟩⟩⟩ <;> simp [itemTok]
  | wild => simp [itemTok]

theorem count_wild_map_itemTok : ∀ l : List Item,
    (l.map itemTok).count RTok.wild = l.count Item.wild := by
  intro l
  induction l with
  | nil => rfl
  | cons i rest ih =>
    rw [List.map_cons]
    by_cases hi : i = Item.wild
    · subst hi
      simp [itemTok, List.count_cons, ih]
    · have ht : ¬ itemTok i = RTok.wild := fun h => hi ((itemTok_wild_iff i).mp h)
      simp [List.count_cons, ih, hi, ht]

/-- Every wildcard token of a compiled pattern comes from a raw `*` byte
of the processed path: the token list has exactly as many wildcards as
the byte string has `*` bytes, so `%2A` never contributes one. -/
theorem compile_wild_count (bs : List Nat) (items : List Item) (r : Regexp)
    (hq : qItems bs = some items) (hc : compilePattern bs = some r) :
    r.toks.count RTok.wild = bs.count 42 := by
  rw [compilePattern_eq bs items hq] at hc
  have hr : r = Regexp.mk
      ((pctStars (pct2524Step (pct24Step (anchorStep (items.map wildify)))).1).map itemTok)
      (pct2524Step (pct24Step (anchorStep (items.map wildify)))).2 :=
    (Option.some_inj.mp hc).symm
  subst hr
  obtain ⟨hmeta, hOK⟩ := qItems_spec bs items hq
  have h1 : bs.count 42 = items.count (Item.esc 42) + items.count Item.wild := by
    rw [← count42_quoteMeta, hmeta, count42_renderAll items hOK]
  have h2 : items.count Item.wild = 0 :=
    List.count_eq_zero.mpr (qItems_no_wild bs.length bs items (le_refl _) hq)
  show ((pctStars _).map itemTok).count RTok.wild = _
  rw [count_wild_map_itemTok]
  unfold pctStars
  rw [count_wild_pctStarsF]
  rw [show pct2524Step (pct24Step (anchorStep (items.map wildify))) =
    pct2524Step ((pct24Step (anchorStep (items.map wildify))).1,
      (pct24Step (anchorStep (items.map wildify))).2) from rfl]
  rw [count_wild_pct2524Step]
  rw [show pct24Step (anchorStep (items.map wildify)) =
    pct24Step ((anchorStep (items.map wildify)).1,
      (anchorStep (items.map wildify)).2) from rfl]
  rw [count_wild_pct24Step]
  rw [count_wild_anchorStep, count_wild_map_wildify, h1]

/-! ## C3 support: inert segments -/

theorem qItems_inert_append (xs : List Nat) (hx : ∀ c ∈ xs, c < 128 ∧ special c = false)
    (ys : List Nat) :
    qItems (xs ++ ys) = (fun items => xs.map Item.bare ++ items) <$> qItems ys := by
  induction xs with
  | nil =>
    rw [List.nil_append]
    cases qItems ys <;> rfl
  | cons c xs ih =>
    have hc := hx c (by simp)
    rw [List.cons_append, qItems_cons]
    have hstep : qItemsStep c (xs ++ ys) = some (Item.bare c, xs ++ ys) := by
      unfold qItemsStep
      rw [if_pos hc.1]
      simp [hc.2]
    rw [hstep]
    show ((fun is => Item.bare c :: is) <$> qItems (xs ++ ys)) = _
    rw [ih (fun d hd => hx d (by simp [hd]))]
    cases qItems ys <;> rfl

theorem map_wildify_bare (a : List Nat) :
    (a.map Item.bare).map wildify = a.map Item.bare := by
  induction a with
  | nil => rfl
  | cons c a ih => simp only [List.map_cons, ih]; rfl

theorem map_itemTok_bare (a : List Nat) :
    (a.map Item.bare).map itemTok = a.map RTok.lit := by
  induction a with
  | nil => rfl
  | cons c a ih => simp only [List.map_cons, ih]; rfl

theorem pctStars_inert_append (a : List Nat) (ha : ∀ c ∈ a, c ≠ 37) (rest : List Item) :
    pctStars (a.map Item.bare ++ rest) = a.map Item.bare ++ pctStars rest := by
  induction a with
  | nil => rfl
  | cons c a ih =>
    rw [List.map_cons, List.cons_append,
      pctStars_cons_neg (Item.bare c) (a.map Item.bare ++ rest) (by
        intro hcon
        have h2 : c = 37 := by
          have h3 := congrArg List.head? hcon
          simpa [List.take_succ_cons] using h3
        exact ha c (by simp) h2),
      ih (fun d hd => ha d (by simp [hd]))]
    rfl

theorem pathUnescape_inert_append (xs : List Char)
    (hx : ∀ c ∈ xs, c ≠ '%' ∧ c.toNat < 128) (ys : List Char) :
    pathUnescape (xs ++ ys) = (fun bs => xs.map Char.toNat ++ bs) <$> pathUnescape ys := by
  induction xs with
  | nil =>
    rw [List.nil_append]
    cases pathUnescape ys <;> rfl
  | cons c xs ih =>
    have hc := hx c (by simp)
    rw [List.cons_append, pathUnescape_cons, if_neg hc.1]
    rw [ih (fun d hd => hx d (by simp [hd]))]
    have henc : utf8Encode c = [c.toNat] := by
      unfold utf8Encode
      rw [if_pos hc.2]
    rw [henc]
    cases pathUnescape ys <;> rfl

theorem pathUnescape_inert (xs : List Char) (hx : ∀ c ∈ xs, c ≠ '%' ∧ c.toNat < 128) :
    pathUnescape xs = some (xs.map Char.toNat) := by
  have h := pathUnescape_inert_append xs hx []
  rw [List.append_nil, pathUnescape_nil] at h
  rw [h]
  simp

theorem map_itemTok_comp_bare (a : List Nat) :
    a.map (itemTok ∘ Item.bare) = a.map RTok.lit := by
  rw [← List.map_map]
  exact map_itemTok_bare a

theorem map_wildify_comp_bare (a : List Nat) :
    a.map (wildify ∘ Item.bare) = a.map Item.bare := by
  rw [← List.map_map]
  exact map_wildify_bare a

/-- In a pattern path, a `%2A` byte triple compiles to a literal-asterisk
token while a raw `*` byte compiles to the wildcard. -/
theorem c3famB (a b : List Nat)
    (ha : ∀ c ∈ a, c < 128 ∧ special c = false ∧ c ≠ 37)
    (hb : ∀ c ∈ b, c < 128 ∧ special c = false ∧ c ≠ 37) :
    compilePattern (a ++ [37, 50, 65] ++ b ++ [42]) =
      some (Regexp.mk
        (a.map RTok.lit ++ [RTok.lit 42] ++ b.map RTok.lit ++ [RTok.wild]) false) := by
  have ha' : ∀ c ∈ a, c < 128 ∧ special c = false := fun c hc => ⟨(ha c hc).1, (ha c hc).2.1⟩
  have hb' : ∀ c ∈ b, c < 128 ∧ special c = false := fun c hc => ⟨(hb c hc).1, (hb c hc).2.1⟩
  have hq : qItems (a ++ [37, 50, 65] ++ b ++ [42]) =
      some (a.map Item.bare ++ [Item.bare 37, Item.bare 50, Item.bare 65] ++
        b.map Item.bare ++ [Item.esc 42]) := by
    rw [List.append_assoc, List.append_assoc, qItems_inert_append a ha' _,
      qItems_inert_append [37, 50, 65] (by decide) _, qItems_inert_append b hb' _,
      show qItems [42] = some [Item.esc 42] from rfl]
    simp [List.append_assoc]
  rw [compilePattern_eq _ _ hq]
  have hw : (a.map Item.bare ++ [Item.bare 37, Item.bare 50, Item.bare 65] ++
      b.map Item.bare ++ [Item.esc 42]).map wildify =
      a.map Item.bare ++ [Item.bare 37, Item.bare 50, Item.bare 65] ++
      b.map Item.bare ++ [Item.wild] := by
    rw [List.map_append, List.map_append, List.map_append, map_wildify_bare a,
      map_wildify_bare b,
      show [Item.bare 37, Item.bare 50, Item.bare 65].map wildify =
        [Item.bare 37, Item.bare 50, Item.bare 65] from rfl,
      show [Item.esc 42].map wildify = [Item.wild] from rfl]
  rw [hw]
  have hanch : anchorStep (a.map Item.bare ++ [Item.bare 37, Item.bare 50, Item.bare 65] ++
      b.map Item.bare ++ [Item.wild]) =
      (a.map Item.bare ++ [Item.bare 37, Item.bare 50, Item.bare 65] ++
        b.map Item.bare ++ [Item.wild], false) := by
    unfold anchorStep
    rw [if_neg (by rw [List.getLast?_concat]; simp)]
  rw [hanch]
  have hrev3 : ¬ ((a.map Item.bare ++ [Item.bare 37, Item.bare 50, Item.bare 65] ++
      b.map Item.bare ++ [Item.wild]).reverse.take 3 =
      [Item.bare 52, Item.bare 50, Item.bare 37]) := by
    intro hcon
    have h3 := congrArg List.head? hcon
    simp [List.reverse_append, List.take_succ_cons] at h3
  have h24 : pct24Step (a.map Item.bare ++ [Item.bare 37, Item.bare 50, Item.bare 65] ++
      b.map Item.bare ++ [Item.wild], false) =
      (a.map Item.bare ++ [Item.bare 37, Item.bare 50, Item.bare 65] ++
        b.map Item.bare ++ [Item.wild], false) := by
    simp [pct24Step, hrev3]
  rw [h24]
  have hrev5 : ¬ ((a.map Item.bare ++ [Item.bare 37, Item.bare 50, Item.bare 65] ++
      b.map Item.bare ++ [Item.wild]).reverse.take 5 =
      [Item.bare 52, Item.bare 50, Item.bare 53, Item.bare 50, Item.bare 37]) := by
    intro hcon
    have h3 := congrArg List.head? hcon
    simp [List.reverse_append, List.take_succ_cons] at h3
  have h2524 : pct2524Step (a.map Item.bare ++ [Item.bare 37, Item.bare 50, Item.bare 65] ++
      b.map Item.bare ++ [Item.wild], false) =
      (a.map Item.bare ++ [Item.bare 37, Item.bare 50, Item.bare 65] ++
        b.map Item.bare ++ [Item.wild], false) := by
    simp [pct2524Step, hrev5]
  rw [h2524]
  have hstars : pctStars (a.map Item.bare ++ [Item.bare 37, Item.bare 50, Item.bare 65] ++
      b.map Item.bare ++ [Item.wild]) =
      a.map Item.bare ++ [Item.esc 42] ++ b.map Item.bare ++ [Item.wild] := by
    rw [List.append_assoc, List.append_assoc,
      pctStars_inert_append a (fun c hc => (ha c hc).2.2) _,
      show ([Item.bare 37, Item.bare 50, Item.bare 65] ++ (b.map Item.bare ++ [Item.wild])) =
        Item.bare 37 :: Item.bare 50 :: Item.bare 65 :: (b.map Item.bare ++ [Item.wild])
        from rfl,
      pctStars_cons_pos _ (by rfl),
      show List.drop 3 (Item.bare 37 :: Item.bare 50 :: Item.bare 65 ::
        (b.map Item.bare ++ [Item.wild])) = b.map Item.bare ++ [Item.wild] from rfl,
      pctStars_inert_append b (fun c hc => (hb c hc).2.2) _,
      pctStars_cons_neg Item.wild [] (by decide), pctStars_nil]
    simp [List.append_assoc]
  rw [show ((a.map Item.bare ++ [Item.bare 37, Item.bare 50, Item.bare 65] ++
      b.map Item.bare ++ [Item.wild], false) : List Item × Bool).1 =
      a.map Item.bare ++ [Item.bare 37, Item.bare 50, Item.bare 65] ++
      b.map Item.bare ++ [Item.wild] from rfl]
  rw [hstars]
  simp [List.map_append, map_itemTok_bare, map_itemTok_comp_bare, itemTok]

theorem pctStars_cons_esc (b : Nat) (rest : List Item) :
    pctStars (Item.esc b :: rest) = Item.esc b :: pctStars rest :=
  pctStars_cons_neg _ _ (by
    intro hcon
    have h3 := congrArg List.head? hcon
    simp [List.take_succ_cons] at h3)

theorem pctStars_cons_wild (rest : List Item) :
    pctStars (Item.wild :: rest) = Item.wild :: pctStars rest :=
  pctStars_cons_neg _ _ (by
    intro hcon
    have h3 := congrArg List.head? hcon
    simp [List.take_succ_cons] at h3)

/-- A trailing escaped `%24` in a pattern path compiles to a literal-`$`
token at the end of an unanchored regex, not to an end anchor. -/
theorem c3famC (a : List Nat) (ha : ∀ c ∈ a, c < 128 ∧ special c = false ∧ c ≠ 37) :
    compilePattern (a ++ [42, 37, 50, 52]) =
      some (Regexp.mk (a.map RTok.lit ++ [RTok.wild, RTok.lit 36]) false) := by
  have ha' : ∀ c ∈ a, c < 128 ∧ special c = false := fun c hc => ⟨(ha c hc).1, (ha c hc).2.1⟩
  have hq : qItems (a ++ [42, 37, 50, 52]) =
      some (a.map Item.bare ++ [Item.esc 42, Item.bare 37, Item.bare 50, Item.bare 52]) := by
    rw [qItems_inert_append a ha' _,
      show qItems [42, 37, 50, 52] =
        some [Item.esc 42, Item.bare 37, Item.bare 50, Item.bare 52] from rfl]
    rfl
  rw [compilePattern_eq _ _ hq]
  have hw : (a.map Item.bare ++
      [Item.esc 42, Item.bare 37, Item.bare 50, Item.bare 52]).map wildify =
      a.map Item.bare ++ [Item.wild, Item.bare 37, Item.bare 50, Item.bare 52] := by
    rw [List.map_append, map_wildify_bare a,
      show [Item.esc 42, Item.bare 37, Item.bare 50, Item.bare 52].map wildify =
        [Item.wild, Item.bare 37, Item.bare 50, Item.bare 52] from rfl]
  rw [hw]
  have hL : a.map Item.bare ++ [Item.wild, Item.bare 37, Item.bare 50, Item.bare 52] =
      (a.map Item.bare ++ [Item.wild]) ++ [Item.bare 37, Item.bare 50, Item.bare 52] := by
    simp
  have hanch : anchorStep (a.map Item.bare ++
      [Item.wild, Item.bare 37, Item.bare 50, Item.bare 52]) =
      (a.map Item.bare ++ [Item.wild, Item.bare 37, Item.bare 50, Item.bare 52], false) := by
    unfold anchorStep
    rw [if_neg (by
      rw [getLast_append_ne _ _ (by simp)]
      simp)]
  rw [hanch]
  have ht : (a.map Item.bare ++
      [Item.wild, Item.bare 37, Item.bare 50, Item.bare 52]).reverse.take 3 =
      [Item.bare 52, Item.bare 50, Item.bare 37] := by
    rw [hL, reverse_take_of_append _ _ 3 (by rfl)]
    rfl
  have hd : ((a.map Item.bare ++
      [Item.wild, Item.bare 37, Item.bare 50, Item.bare 52]).reverse.drop 3).reverse =
      a.map Item.bare ++ [Item.wild] := by
    rw [hL, reverse_drop_of_append _ _ 3 (by rfl), List.reverse_reverse]
  have h24 : pct24Step (a.map Item.bare ++
      [Item.wild, Item.bare 37, Item.bare 50, Item.bare 52], false) =
      (a.map Item.bare ++ [Item.wild] ++ [Item.esc 36], false) := by
    simp [pct24Step, ht, hd]
  rw [h24]
  have hrev5 : ¬ ((a.map Item.bare ++ [Item.wild] ++ [Item.esc 36]).reverse.take 5 =
      [Item.bare 52, Item.bare 50, Item.bare 53, Item.bare 50, Item.bare 37]) := by
    intro hcon
    have h3 := congrArg List.head? hcon
    simp [List.reverse_append, List.take_succ_cons] at h3
  have h2524 : pct2524Step (a.map Item.bare ++ [Item.wild] ++ [Item.esc 36], false) =
      (a.map Item.bare ++ [Item.wild] ++ [Item.esc 36], false) := by
    simp [pct2524Step, hrev5]
  rw [h2524]
  have hstars : pctStars (a.map Item.bare ++ [Item.wild] ++ [Item.esc 36]) =
      a.map Item.bare ++ [Item.wild, Item.esc 36] := by
    rw [List.append_assoc,
      show ([Item.wild] ++ [Item.esc 36] : List Item) = [Item.wild, Item.esc 36] from rfl,
      pctStars_inert_append a (fun c hc => (ha c hc).2.2) _,
      pctStars_cons_wild, pctStars_cons_esc, pctStars_nil]
  rw [show ((a.map Item.bare ++ [Item.wild] ++ [Item.esc 36], false) :
      List Item × Bool).1 = a.map Item.bare ++ [Item.wild] ++ [Item.esc 36] from rfl]
  rw [hstars]
  simp [List.map_append, map_itemTok_comp_bare, itemTok]

/-- A trailing raw `$` in a pattern path compiles to an anchored regex. -/
theorem c3famD (a : List Nat) (ha : ∀ c ∈ a, c < 128 ∧ special c = false ∧ c ≠ 37) :
    compilePattern (a ++ [42, 36]) =
      some (Regexp.mk (a.map RTok.lit ++ [RTok.wild]) true) := by
  have ha' : ∀ c ∈ a, c < 128 ∧ special c = false := fun c hc => ⟨(ha c hc).1, (ha c hc).2.1⟩
  have hq : qItems (a ++ [42, 36]) =
      some (a.map Item.bare ++ [Item.esc 42, Item.esc 36]) := by
    rw [qItems_inert_append a ha' _,
      show qItems [42, 36] = some [Item.esc 42, Item.esc 36] from rfl]
    rfl
  rw [compilePattern_eq _ _ hq]
  have hw : (a.map Item.bare ++ [Item.esc 42, Item.esc 36]).map wildify =
      a.map Item.bare ++ [Item.wild, Item.esc 36] := by
    rw [List.map_append, map_wildify_bare a,
      show [Item.esc 42, Item.esc 36].map wildify = [Item.wild, Item.esc 36] from rfl]
  rw [hw]
  have hL : a.map Item.bare ++ [Item.wild, Item.esc 36] =
      (a.map Item.bare ++ [Item.wild]) ++ [Item.esc 36] := by
    simp
  have hanch : anchorStep (a.map Item.bare ++ [Item.wild, Item.esc 36]) =
      (a.map Item.bare ++ [Item.wild], true) := by
    unfold anchorStep
    rw [hL, if_pos (List.getLast?_concat _), List.dropLast_concat]
  rw [hanch]
  rw [show pct24Step (a.map Item.bare ++ [Item.wild], true) =
    (a.map Item.bare ++ [Item.wild], true) from rfl]
  rw [show pct2524Step (a.map Item.bare ++ [Item.wild], true) =
    (a.map Item.bare ++ [Item.wild], true) from rfl]
  have hstars : pctStars (a.map Item.bare ++ [Item.wild]) =
      a.map Item.bare ++ [Item.wild] := by
    rw [pctStars_inert_append a (fun c hc => (ha c hc).2.2) _,
      pctStars_cons_wild, pctStars_nil]
  rw [show ((a.map Item.bare ++ [Item.wild], true) : List Item × Bool).1 =
    a.map Item.bare ++ [Item.wild] from rfl]
  rw [hstars]
  simp [List.map_append, map_itemTok_comp_bare, itemTok]

/-- A non-final `$` byte (such as a decoded non-trailing `%24`) in a
pattern path compiles to a literal-`$` token, not an anchor. -/
theorem c3famE (a b : List Nat)
    (ha : ∀ c ∈ a, c < 128 ∧ special c = false ∧ c ≠ 37)
    (hb : ∀ c ∈ b, c < 128 ∧ special c = false ∧ c ≠ 37) :
    compilePattern (a ++ [36] ++ b ++ [42]) =
      some (Regexp.mk
        (a.map RTok.lit ++ [RTok.lit 36] ++ b.map RTok.lit ++ [RTok.wild]) false) := by
  have ha' : ∀ c ∈ a, c < 128 ∧ special c = false := fun c hc => ⟨(ha c hc).1, (ha c hc).2.1⟩
  have hb' : ∀ c ∈ b, c < 128 ∧ special c = false := fun c hc => ⟨(hb c hc).1, (hb c hc).2.1⟩
  have hq : qItems (a ++ [36] ++ b ++ [42]) =
      some (a.map Item.bare ++ [Item.esc 36] ++ b.map Item.bare ++ [Item.esc 42]) := by
    rw [List.append_assoc, List.append_assoc, qItems_inert_append a ha' _,
      show ([36] ++ (b ++ [42]) : List Nat) = 36 :: (b ++ [42]) from rfl, qItems_cons,
      show qItemsStep 36 (b ++ [42]) = some (Item.esc 36, b ++ [42]) from by
        unfold qItemsStep
        rw [if_pos (by omega)]
        rfl]
    rw [Option.some_bind, qItems_inert_append b hb' _,
      show qItems [42] = some [Item.esc 42] from rfl]
    simp [List.append_assoc]
  rw [compilePattern_eq _ _ hq]
  have hw : (a.map Item.bare ++ [Item.esc 36] ++ b.map Item.bare ++
      [Item.esc 42]).map wildify =
      a.map Item.bare ++ [Item.esc 36] ++ b.map Item.bare ++ [Item.wild] := by
    rw [List.map_append, List.map_append, List.map_append, map_wildify_bare a,
      map_wildify_bare b,
      show [Item.esc 36].map wildify = [Item.esc 36] from rfl,
      show [Item.esc 42].map wildify = [Item.wild] from rfl]
  rw [hw]
  have hanch : anchorStep (a.map Item.bare ++ [Item.esc 36] ++ b.map Item.bare ++
      [Item.wild]) =
      (a.map Item.bare ++ [Item.esc 36] ++ b.map Item.bare ++ [Item.wild], false) := by
    unfold anchorStep
    rw [if_neg (by rw [List.getLast?_concat]; simp)]
  rw [hanch]
  have hrev3 : ¬ ((a.map Item.bare ++ [Item.esc 36] ++ b.map Item.bare ++
      [Item.wild]).reverse.take 3 = [Item.bare 52, Item.bare 50, Item.bare 37]) := by
    intro hcon
    have h3 := congrArg List.head? hcon
    simp [List.reverse_append, List.take_succ_cons] at h3
  have h24 : pct24Step (a.map Item.bare ++ [Item.esc 36] ++ b.map Item.bare ++
      [Item.wild], false) =
      (a.map Item.bare ++ [Item.esc 36] ++ b.map Item.bare ++ [Item.wild], false) := by
    simp [pct24Step, hrev3]
  rw [h24]
  have hrev5 : ¬ ((a.map Item.bare ++ [Item.esc 36] ++ b.map Item.bare ++
      [Item.wild]).reverse.take 5 =
      [Item.bare 52, Item.bare 50, Item.bare 53, Item.bare 50, Item.bare 37]) := by
    intro hcon
    have h3 := congrArg List.head? hcon
    simp [List.reverse_append, List.take_succ_cons] at h3
  have h2524 : pct2524Step (a.map Item.bare ++ [Item.esc 36] ++ b.map Item.bare ++
      [Item.wild], false) =
      (a.map Item.bare ++ [Item.esc 36] ++ b.map Item.bare ++ [Item.wild], false) := by
    simp [pct2524Step, hrev5]
  rw [h2524]
  have hstars : pctStars (a.map Item.bare ++ [Item.esc 36] ++ b.map Item.bare ++
      [Item.wild]) =
      a.map Item.bare ++ [Item.esc 36] ++ b.map Item.bare ++ [Item.wild] := by
    rw [List.append_assoc, List.append_assoc,
      pctStars_inert_append a (fun c hc => (ha c hc).2.2) _,
      show ([Item.esc 36] ++ (b.map Item.bare ++ [Item.wild]) : List Item) =
        Item.esc 36 :: (b.map Item.bare ++ [Item.wild]) from rfl,
      pctStars_cons_esc,
      pctStars_inert_append b (fun c hc => (hb c hc).2.2) _,
      pctStars_cons_wild, pctStars_nil]
  rw [show ((a.map Item.bare ++ [Item.esc 36] ++ b.map Item.bare ++ [Item.wild], false) :
      List Item × Bool).1 =
      a.map Item.bare ++ [Item.esc 36] ++ b.map Item.bare ++ [Item.wild] from rfl]
  rw [hstars]
  simp [List.map_append, map_itemTok_comp_bare, itemTok]

/-- In a non-pattern path, a `%2A` escape survives the percent-decoding
as the literal three bytes `%2A`, and the stored literal rule carries
those bytes, so it prefix-matches the text `%2A` rather than an
asterisk. -/
theorem c3famF (gs : List (List Char × RGroup)) (ua : List Char) (allow : Bool)
    (a b : List Char)
    (ha : ∀ c ∈ a, c ≠ '%' ∧ c ≠ '*' ∧ c ≠ '$' ∧ c.toNat < 128)
    (hb : ∀ c ∈ b, c ≠ '%' ∧ c ≠ '*' ∧ c ≠ '$' ∧ c.toNat < 128) :
    isPattern (a ++ ['%', '2', 'A'] ++ b) = false ∧
    processPath (a ++ ['%', '2', 'A'] ++ b) =
      a.map Char.toNat ++ [37, 50, 65] ++ b.map Char.toNat ∧
    addPathRule gs ua (a ++ ['%', '2', 'A'] ++ b) allow =
      setGroup gs ua
        ⟨((lookupGroup gs ua).getD ⟨[], 0⟩).rules ++
          [⟨allow, a.map Char.toNat ++ [37, 50, 65] ++ b.map Char.toNat, none⟩],
         ((lookupGroup gs ua).getD ⟨[], 0⟩).crawlDelay⟩ := by
  have hmem : ('*' : Char) ∉ (a ++ ['%', '2', 'A'] ++ b) := by
    intro hm
    rcases List.mem_append.mp hm with hm1 | hm2
    · rcases List.mem_append.mp hm1 with hma | hmc
      · exact (ha _ hma).2.1 rfl
      · simp at hmc
    · exact (hb _ hm2).2.1 rfl
  have hlast : ¬ (a ++ ['%', '2', 'A'] ++ b).getLast? = some '$' := by
    rw [List.append_assoc, getLast_append_ne _ _ (by simp)]
    cases hbl : b.getLast? with
    | none =>
      have hbe : b = [] := List.getLast?_eq_none_iff.mp hbl
      subst hbe
      decide
    | some c =>
      have hbne : b ≠ [] := by
        intro hh
        subst hh
        cases hbl
      rw [getLast_append_ne _ _ hbne, hbl]
      intro hcon
      have hc : c = '$' := by simpa using hcon
      exact (hb c (List.mem_of_mem_getLast? hbl)).2.2.1 hc
  have hpat : isPattern (a ++ ['%', '2', 'A'] ++ b) = false := by
    unfold isPattern
    rw [Bool.or_eq_false_iff]
    constructor
    · simpa using hmem
    · simpa using hlast
  have hp2 : replaceAll pct2Ac pct252Ac (a ++ ['%', '2', 'A'] ++ b) =
      a ++ (['%', '2', '5', '2', 'A'] ++ b) := by
    rw [List.append_assoc]
    show replaceAll ('%' :: ['2', 'A']) pct252Ac (a ++ (['%', '2', 'A'] ++ b)) = _
    rw [replaceAll_append_ne_head '%' ['2', 'A'] pct252Ac a _ (fun c hc => (ha c hc).1)]
    congr 1
    rw [show (['%', '2', 'A'] ++ b : List Char) = '%' :: ('2' :: 'A' :: b) from rfl,
      replaceAll_cons_pos _ _ '%' ('2' :: 'A' :: b) (by simp) (by simp [List.isPrefixOf])]
    rw [show (('%' :: '2' :: 'A' :: b).drop ('%' :: ['2', 'A']).length : List Char) = b
      from rfl]
    rw [replaceAll_of_no_head '%' ['2', 'A'] pct252Ac b (fun c hc => (hb c hc).1)]
    rfl
  have hpu : pathUnescape (a ++ (['%', '2', '5', '2', 'A'] ++ b)) =
      some (a.map Char.toNat ++ [37, 50, 65] ++ b.map Char.toNat) := by
    rw [pathUnescape_inert_append a (fun c hc => ⟨(ha c hc).1, (ha c hc).2.2.2⟩) _]
    rw [show (['%', '2', '5', '2', 'A'] ++ b : List Char) =
      '%' :: ('2' :: '5' :: '2' :: 'A' :: b) from rfl]
    rw [pathUnescape_cons, if_pos rfl, if_pos (by simp)]
    rw [show ('2' :: '5' :: '2' :: 'A' :: b).headI = '2' from rfl,
      show ('2' :: '5' :: '2' :: 'A' :: b).tail.headI = '5' from rfl,
      show ('2' :: '5' :: '2' :: 'A' :: b).tail.tail = '2' :: 'A' :: b from rfl,
      show hexVal '2' = some 2 from rfl, show hexVal '5' = some 5 from rfl]
    simp only [Option.some_bind]
    rw [show ('2' :: 'A' :: b : List Char) = ['2', 'A'] ++ b from rfl,
      pathUnescape_inert_append ['2', 'A'] (by decide) b,
      pathUnescape_inert b (fun c hc => ⟨(hb c hc).1, (hb c hc).2.2.2⟩)]
    simp [List.append_assoc]
  have hpp : processPath (a ++ ['%', '2', 'A'] ++ b) =
      a.map Char.toNat ++ [37, 50, 65] ++ b.map Char.toNat := by
    unfold processPath
    rw [hpat]
    simp only [Bool.false_eq_true, if_false]
    rw [hp2, hpu]
  refine ⟨hpat, hpp, ?_⟩
  unfold addPathRule
  rw [hpat]
  simp only [Bool.false_eq_true, if_false]
  rw [hpp]

/-! ## C3: the `%2A` and `%24` escapes -/

/-- C3 (counterexample): in the non-pattern rule `Disallow: /a%2Ab` the
`%2A` escape does not match a literal asterisk: the stored literal path
keeps the three characters `%2A`, the request path `/a*b` holding a real
asterisk is allowed, and the rule instead prefix-matches a request whose
decoded path contains the literal text `%2A`. -/
theorem c3_escape_handling_counterexample :
    (Parse modelURLParse modelToASCII "User-agent: *\nDisallow: /a%2Ab".data baseURL).map
      (fun r => (lookupGroup r.groups ['*']).map RGroup.rules) =
      some (some [⟨false, [47, 97, 37, 50, 65, 98], none⟩]) ∧
    (Parse modelURLParse modelToASCII "User-agent: *\nDisallow: /a%2Ab".data baseURL).map
      (fun r => IsAllowed modelURLParse modelToASCII r ['b']
        "http://www.example.com/a*b".data) = some (Except.ok true) ∧
    (Parse modelURLParse modelToASCII "User-agent: *\nDisallow: /a%2Ab".data baseURL).map
      (fun r => IsAllowed modelURLParse modelToASCII r ['b']
        "http://www.example.com/a%252Ab".data) = some (Except.ok false) := by
  exact ⟨by decide, by decide, by decide⟩

/-- C3 (amended): the escape handling applies to pattern paths. In a
compiled pattern, wildcard tokens arise exactly from raw `*` bytes — a
`%2A` never becomes the wildcard operator but a literal-asterisk token —
and `%24` produces the end anchor only as a raw trailing `$`: a trailing
escaped `%24` and a non-final `$` byte both become a literal-`$` token.
In a non-pattern path, `%2A` stays percent-encoded, so the stored
literal rule matches the text `%2A`, not an asterisk. -/
theorem c3_escape_handling_amended :
    (∀ (bs : List Nat) (items : List Item) (r : Regexp),
      qItems bs = some items → compilePattern bs = some r →
      r.toks.count RTok.wild = bs.count 42) ∧
    (∀ a b : List Nat, (∀ c ∈ a, c < 128 ∧ special c = false ∧ c ≠ 37) →
      (∀ c ∈ b, c < 128 ∧ special c = false ∧ c ≠ 37) →
      compilePattern (a ++ [37, 50, 65] ++ b ++ [42]) =
        some (Regexp.mk
          (a.map RTok.lit ++ [RTok.lit 42] ++ b.map RTok.lit ++ [RTok.wild]) false)) ∧
    (∀ a : List Nat, (∀ c ∈ a, c < 128 ∧ special c = false ∧ c ≠ 37) →
      compilePattern (a ++ [42, 37, 50, 52]) =
        some (Regexp.mk (a.map RTok.lit ++ [RTok.wild, RTok.lit 36]) false)) ∧
    (∀ a : List Nat, (∀ c ∈ a, c < 128 ∧ special c = false ∧ c ≠ 37) →
      compilePattern (a ++ [42, 36]) =
        some (Regexp.mk (a.map RTok.lit ++ [RTok.wild]) true)) ∧
    (∀ a b : List Nat, (∀ c ∈ a, c < 128 ∧ special c = false ∧ c ≠ 37) →
      (∀ c ∈ b, c < 128 ∧ special c = false ∧ c ≠ 37) →
      compilePattern (a ++ [36] ++ b ++ [42]) =
        some (Regexp.mk
          (a.map RTok.lit ++ [RTok.lit 36] ++ b.map RTok.lit ++ [RTok.wild]) false)) ∧
    (∀ (gs : List (List Char × RGroup)) (ua : List Char) (allow : Bool)
      (a b : List Char),
      (∀ c ∈ a, c ≠ '%' ∧ c ≠ '*' ∧ c ≠ '$' ∧ c.toNat < 128) →
      (∀ c ∈ b, c ≠ '%' ∧ c ≠ '*' ∧ c ≠ '$' ∧ c.toNat < 128) →
      isPattern (a ++ ['%', '2', 'A'] ++ b) = false ∧
      processPath (a ++ ['%', '2', 'A'] ++ b) =
        a.map Char.toNat ++ [37, 50, 65] ++ b.map Char.toNat ∧
      addPathRule gs ua (a ++ ['%', '2', 'A'] ++ b) allow =
        setGroup gs ua
          ⟨((lookupGroup gs ua).getD ⟨[], 0⟩).rules ++
            [⟨allow, a.map Char.toNat ++ [37, 50, 65] ++ b.map Char.toNat, none⟩],
           ((lookupGroup gs ua).getD ⟨[], 0⟩).crawlDelay⟩) :=
  ⟨fun bs items r hq hc => compile_wild_count bs items r hq hc,
   c3famB, c3famC, c3famD, c3famE, c3famF⟩

theorem c3_escape_handling_amended_witness :
    (qItems [47, 37, 50, 65, 42] =
      some [Item.bare 47, Item.bare 37, Item.bare 50, Item.bare 65, Item.esc 42] ∧
     compilePattern [47, 37, 50, 65, 42] =
      some (Regexp.mk [RTok.lit 47, RTok.lit 42, RTok.wild] false) ∧
     (Regexp.mk [RTok.lit 47, RTok.lit 42, RTok.wild] false).toks.count RTok.wild =
      ([47, 37, 50, 65, 42] : List Nat).count 42) ∧
    compilePattern ([47] ++ [37, 50, 65] ++ [98] ++ [42]) =
      some (Regexp.mk ([47].map RTok.lit ++ [RTok.lit 42] ++ [98].map RTok.lit ++
        [RTok.wild]) false) ∧
    compilePattern ([47] ++ [42, 37, 50, 52]) =
      some (Regexp.mk ([47].map RTok.lit ++ [RTok.wild, RTok.lit 36]) false) ∧
    compilePattern ([47] ++ [42, 36]) =
      some (Regexp.mk ([47].map RTok.lit ++ [RTok.wild]) true) ∧
    compilePattern ([47] ++ [36] ++ [98] ++ [42]) =
      some (Regexp.mk ([47].map RTok.lit ++ [RTok.lit 36] ++ [98].map RTok.lit ++
        [RTok.wild]) false) ∧
    (isPattern (['/', 'x'] ++ ['%', '2', 'A'] ++ ['y']) = false ∧
     processPath (['/', 'x'] ++ ['%', '2', 'A'] ++ ['y']) =
      ['/', 'x'].map Char.toNat ++ [37, 50, 65] ++ ['y'].map Char.toNat ∧
     addPathRule [] ['a'] (['/', 'x'] ++ ['%', '2', 'A'] ++ ['y']) false =
      setGroup [] ['a']
        ⟨((lookupGroup [] ['a']).getD ⟨[], 0⟩).rules ++
          [⟨false, ['/', 'x'].map Char.toNat ++ [37, 50, 65] ++ ['y'].map Char.toNat,
            none⟩],
         ((lookupGroup [] ['a']).getD ⟨[], 0⟩).crawlDelay⟩) :=
  ⟨⟨by decide, by decide,
    c3_escape_handling_amended.1 [47, 37, 50, 65, 42]
      [Item.bare 47, Item.bare 37, Item.bare 50, Item.bare 65, Item.esc 42]
      (Regexp.mk [RTok.lit 47, RTok.lit 42, RTok.wild] false) (by decide) (by decide)⟩,
   c3_escape_handling_amended.2.1 [47] [98] (by decide) (by decide),
   c3_escape_handling_amended.2.2.1 [47] (by decide),
   c3_escape_handling_amended.2.2.2.1 [47] (by decide),
   c3_escape_handling_amended.2.2.2.2.1 [47] [98] (by decide) (by decide),
   c3_escape_handling_amended.2.2.2.2.2 [] ['a'] false ['/', 'x'] ['y']
     (by decide) (by decide)⟩
